import Mathlib

/-!
# CCGate — verification of the natural-language specification against the source

Shallow embedding of the CCGate reverse proxy (a Node.js program) in Lean 4.

Conventions used throughout this development:

* JavaScript numbers are modelled as rationals (`ℚ`).  All arithmetic that the
  claims are about (token counts, USD costs, smooth-WRR counters) is exact
  integer or small-denominator decimal arithmetic, where the double-precision
  semantics of the source and `ℚ` agree.
* `JSON.parse` is modelled by an executable recursive-descent parser
  `Json.parse` over a `Json` value type; a malformed document parses to `none`
  (the source throws `SyntaxError`, callers `catch`).
* Fallible operations are `Option`/`Except`.
* Node's event callbacks (`proxyReq.on('error')` etc.) are modelled by a pure
  function from the upstream outcome to the list of actions performed on the
  client response object, in the order the source performs them.

Source files embedded: `src/core/loadBalancer.js`, `src/core/proxy.js`
(both the `ProxyCore` and the `OpenAICompatLayer`), `src/services/usageService.js`,
`src/utils/helpers.js`, `src/utils/formatConverter.js`.
-/

namespace CCGate

/-! ## JavaScript `Math.round` and 6-decimal rounding

`usageService.js` rounds costs with `Math.round(x * 1000000) / 1000000`.
JavaScript `Math.round` rounds half-way cases toward `+∞`, i.e. `⌊x + 1/2⌋`. -/

/-- JavaScript `Math.round`: round half toward positive infinity, i.e. the
floor of `q + 1/2` (written with the executable `Rat.floor`, which equals
`Int.floor` on `ℚ` by `Rat.floor_int_eq` / `Rat.floor_cast`). -/
def jsRound (q : ℚ) : ℤ := (q + 1/2).floor

/-- `Math.round(x * 1000000) / 1000000` from `usageService.js` lines 40–44. -/
def round6 (q : ℚ) : ℚ := (jsRound (q * 1000000) : ℚ) / 1000000

/-! ## JSON values and a model of `JSON.parse`

The value type carries numbers as `ℚ` (see the header note).  Object fields
keep insertion order, which is what `Object.keys` iterates in the source. -/

inductive Json where
  | null : Json
  | bool (b : Bool) : Json
  | num (q : ℚ) : Json
  | str (s : String) : Json
  | arr (elems : List Json) : Json
  | obj (fields : List (String × Json)) : Json

namespace Json

/-- JavaScript property access `j.k` on a parsed JSON value: the field's value
if present (later duplicate keys win, as in `JSON.parse`), otherwise
`undefined`, modelled as `none`. -/
def getField : Json → String → Option Json
  | .obj fields, k => (fields.reverse.find? (fun f => f.1 = k)).map (·.2)
  | _, _ => none

/-- JavaScript truthiness of a JSON value (`undefined` is handled by callers
via `Option`). -/
def truthy : Json → Bool
  | .null => false
  | .bool b => b
  | .num q => !(q = 0)
  | .str s => !(s = "")
  | .arr _ => true
  | .obj _ => true

/-- `j.k || 0` for a numeric field: the number if the field holds a non-zero
number, `0` if it is absent, `null`, `false`, or `0`.  (Non-numeric truthy
values never occur in the records this development evaluates.) -/
def getNumOr0 (j : Json) (k : String) : ℚ :=
  match j.getField k with
  | some (.num q) => q
  | _ => 0

/-- A numeric field read without a `|| 0` guard: `none` models the `NaN`
poisoning that `undefined + x` produces in the source. -/
def getNum? (j : Json) (k : String) : Option ℚ :=
  match j.getField k with
  | some (.num q) => some q
  | _ => none

end Json

/-! ### The parser -/

namespace JsonParse

def isWs (c : Char) : Bool := c = ' ' || c = '\t' || c = '\n' || c = '\r'

def skipWs : List Char → List Char
  | [] => []
  | c :: cs => if isWs c then skipWs cs else c :: cs

def digit? (c : Char) : Option ℕ :=
  if '0' ≤ c ∧ c ≤ '9' then some (c.toNat - '0'.toNat) else none

/-- Parse a maximal run of decimal digits; fails on an empty run. -/
def digits : List Char → Option (ℕ × ℕ × List Char)
  | [] => none
  | c :: cs =>
    match digit? c with
    | none => none
    | some d =>
      match digits cs with
      | none => some (d, 1, cs)
      | some (n, len, rest) => some (d * 10 ^ len + n, len + 1, rest)

def hexDigit? (c : Char) : Option ℕ :=
  if '0' ≤ c ∧ c ≤ '9' then some (c.toNat - '0'.toNat)
  else if 'a' ≤ c ∧ c ≤ 'f' then some (c.toNat - 'a'.toNat + 10)
  else if 'A' ≤ c ∧ c ≤ 'F' then some (c.toNat - 'A'.toNat + 10)
  else none

/-- Parse the body of a JSON string after the opening quote. -/
def stringBody : ℕ → List Char → Option (String × List Char)
  | 0, _ => none
  | _, [] => none
  | fuel + 1, c :: cs =>
    if c = '"' then some ("", cs)
    else if c = '\\' then
      match cs with
      | [] => none
      | e :: cs' =>
        let esc : Option (Char × List Char) :=
          if e = '"' then some ('"', cs')
          else if e = '\\' then some ('\\', cs')
          else if e = '/' then some ('/', cs')
          else if e = 'b' then some (Char.ofNat 8, cs')
          else if e = 'f' then some (Char.ofNat 12, cs')
          else if e = 'n' then some ('\n', cs')
          else if e = 'r' then some ('\r', cs')
          else if e = 't' then some ('\t', cs')
          else if e = 'u' then
            match cs' with
            | h1 :: h2 :: h3 :: h4 :: cs'' =>
              match hexDigit? h1, hexDigit? h2, hexDigit? h3, hexDigit? h4 with
              | some a, some b, some c', some d =>
                some (Char.ofNat (((a * 16 + b) * 16 + c') * 16 + d), cs'')
              | _, _, _, _ => none
            | _ => none
          else none
        match esc with
        | none => none
        | some (ch, rest) =>
          match stringBody fuel rest with
          | none => none
          | some (s, rest') => some (⟨ch :: s.data⟩, rest')
    else
      match stringBody fuel cs with
      | none => none
      | some (s, rest) => some (⟨c :: s.data⟩, rest)

/-- Parse a JSON number (sign, integer part, optional fraction and exponent). -/
def number : List Char → Option (ℚ × List Char)
  | input =>
    let (neg, afterSign) :=
      match input with
      | '-' :: rest => (true, rest)
      | _ => (false, input)
    match digits afterSign with
    | none => none
    | some (ip, _, afterInt) =>
      let (mant, scale, afterFrac) :=
        match afterInt with
        | '.' :: fr =>
          match digits fr with
          | some (fp, flen, rest) => ((ip : ℚ) + (fp : ℚ) / 10 ^ flen, true, rest)
          | none => ((ip : ℚ), false, afterInt)
        | _ => ((ip : ℚ), true, afterInt)
      if !scale then none
      else
        let applyExp : ℚ × List Char :=
          match afterFrac with
          | 'e' :: ex => expPart mant ex
          | 'E' :: ex => expPart mant ex
          | _ => (mant, afterFrac)
        let m := applyExp.1
        some (if neg then -m else m, applyExp.2)
where
  expPart (m : ℚ) (ex : List Char) : ℚ × List Char :=
    let (eneg, afterESign) :=
      match ex with
      | '-' :: rest => (true, rest)
      | '+' :: rest => (false, rest)
      | _ => (false, ex)
    match digits afterESign with
    | none => (m, 'e' :: ex)   -- dangling exponent: surfaced as leftover input
    | some (e, _, rest) => (if eneg then m / 10 ^ e else m * 10 ^ e, rest)

/-- What the recursive-descent parser is currently parsing: a value, the
inside of an object just after the opening brace, a comma-separated field
list, the inside of an array just after the opening bracket, or a
comma-separated element list. -/
inductive PMode where
  | value : PMode
  | objStart : PMode
  | fieldList (acc : List (String × Json)) : PMode
  | arrStart : PMode
  | elemList (acc : List Json) : PMode

/-- The recursive-descent parser, structural on the fuel (every recursive
call decrements it, and `Json.parse` supplies enough for any input). -/
def parseP : ℕ → PMode → List Char → Option (Json × List Char)
  | 0, _, _ => none
  | fuel + 1, .value, input =>
    (match skipWs input with
     | [] => none
     | c :: cs =>
       if c = '{' then parseP fuel .objStart cs
       else if c = '[' then parseP fuel .arrStart cs
       else if c = '"' then
         match stringBody (cs.length + 1) cs with
         | none => none
         | some (s, rest) => some (.str s, rest)
       else if c = 't' then
         match cs with
         | 'r' :: 'u' :: 'e' :: rest => some (.bool true, rest)
         | _ => none
       else if c = 'f' then
         match cs with
         | 'a' :: 'l' :: 's' :: 'e' :: rest => some (.bool false, rest)
         | _ => none
       else if c = 'n' then
         match cs with
         | 'u' :: 'l' :: 'l' :: rest => some (.null, rest)
         | _ => none
       else
         match number (c :: cs) with
         | none => none
         | some (q, rest) => some (.num q, rest))
  | fuel + 1, .objStart, input =>
    (match skipWs input with
     | [] => none
     | c :: cs =>
       if c = '}' then some (.obj [], cs)
       else parseP fuel (.fieldList []) (c :: cs))
  | fuel + 1, .fieldList acc, input =>
    (match skipWs input with
     | '"' :: cs =>
       (match stringBody (cs.length + 1) cs with
        | none => none
        | some (k, rest) =>
          match skipWs rest with
          | ':' :: rest2 =>
            (match parseP fuel .value rest2 with
             | none => none
             | some (v, rest3) =>
               match skipWs rest3 with
               | ',' :: rest4 => parseP fuel (.fieldList (acc ++ [(k, v)])) rest4
               | '}' :: rest4 => some (.obj (acc ++ [(k, v)]), rest4)
               | _ => none)
          | _ => none)
     | _ => none)
  | fuel + 1, .arrStart, input =>
    (match skipWs input with
     | [] => none
     | c :: cs =>
       if c = ']' then some (.arr [], cs)
       else parseP fuel (.elemList []) (c :: cs))
  | fuel + 1, .elemList acc, input =>
    (match parseP fuel .value input with
     | none => none
     | some (v, rest) =>
       match skipWs rest with
       | ',' :: rest2 => parseP fuel (.elemList (acc ++ [v])) rest2
       | ']' :: rest2 => some (.arr (acc ++ [v]), rest2)
       | _ => none)

end JsonParse

/-- Model of `JSON.parse` on a whole document: `none` when the source would
throw a `SyntaxError`.  Parsing consumes a character every bounded number of
steps, so `4 * length + 8` fuel always suffices for any document that
parses at all. -/
def Json.parse (s : String) : Option Json :=
  match JsonParse.parseP (4 * s.length + 8) .value s.data with
  | none => none
  | some (v, rest) =>
    match JsonParse.skipWs rest with
    | [] => some v
    | _ => none
/-! ## Wildcard matcher (`helpers.js`, `Helpers.matchPattern`, lines 389–416)

The source escapes the characters `.+^${}()|[]\` of the pattern, replaces
each `*` by `.*`, and tests `new RegExp('^' + p + '$', 'i')` against the
text.  After the escape step the only regex constructs that can remain are
literal characters, `.*` runs, and an unescaped `?`, which quantifies the
preceding atom (it is *not* in the escape class).  `compileGlob` mirrors that
compilation as a small item list; `rmatch` is the whole-string matching
semantics of that restricted regex class, with the case-insensitive flag as
lower-casing.  The regex is built without the `s` flag, so the `.` of a
`.*` run matches any character *except* the JavaScript line terminators
(LF, CR, U+2028, U+2029).  A `?` with nothing before it (pattern starting
with `?`) makes `new RegExp` throw, which the source catches, returning
`false`: `compileGlob` returns `none` there. -/

/-- The JavaScript line terminators (ECMA-262 LineTerminator): regex `.`
without the `s` flag matches any character except these four. -/
def isLineTerm (c : Char) : Bool :=
  c = '\n' || c = '\r' || c = '\u2028' || c = '\u2029'

/-- Case-insensitive character comparison (the regex `i` flag). -/
def charCI (a b : Char) : Bool := a.toLower = b.toLower

/-- One item of the compiled regex: a literal character, a `.*` run, or an
optional literal (a literal followed by `?`). -/
inductive RItem where
  | lit (c : Char) : RItem
  | star : RItem
  | optLit (c : Char) : RItem
deriving Repr, DecidableEq

/-- Compile the pattern as `matchPattern` builds its regex: `*` becomes a
`.*` item, `?` makes the previous atom optional (and is a regex syntax error
with no previous atom), every other character is literal (escaped or
regex-inert). -/
def compileGlob (p : List Char) : Option (List RItem) :=
  (go p []).map List.reverse
where
  go : List Char → List RItem → Option (List RItem)
    | [], acc => some acc
    | c :: cs, acc =>
      if c = '*' then go cs (.star :: acc)
      else if c = '?' then
        match acc with
        | [] => none
        | .lit l :: rest => go cs (.optLit l :: rest)
        | .star :: rest => go cs (.star :: rest)       -- lazy star, same language
        | .optLit l :: rest => go cs (.optLit l :: rest) -- lazy option, same language
      else go cs (.lit c :: acc)

/-- Fueled whole-string matching of the compiled items against the text,
case-insensitively (the anchored `^...$` regex test).  A `.*` run consumes
only non-line-terminator characters, as `.` does without the `s` flag.
Every step consumes an item or a character, so `items.length + s.length`
bounds the recursion depth and the fuel never runs out in `rmatch` below. -/
def rmatchF : ℕ → List RItem → List Char → Bool
  | 0, _, _ => false
  | _ + 1, [], [] => true
  | _ + 1, [], _ :: _ => false
  | _ + 1, .lit _ :: _, [] => false
  | fuel + 1, .lit c :: r, x :: xs => charCI c x && rmatchF fuel r xs
  | fuel + 1, .optLit c :: r, s =>
    rmatchF fuel r s ||
      (match s with
       | [] => false
       | x :: xs => charCI c x && rmatchF fuel r xs)
  | fuel + 1, .star :: r, s =>
    rmatchF fuel r s ||
      (match s with
       | [] => false
       | x :: xs => !isLineTerm x && rmatchF fuel (.star :: r) xs)

/-- Whole-string matching with adequate fuel. -/
def rmatch (items : List RItem) (s : List Char) : Bool :=
  rmatchF (items.length + s.length + 1) items s

/-- `Helpers.matchPattern(pattern, text)`: falsy (empty) pattern or text give
`false`; a bare `*` and exact equality short-circuit to `true`; otherwise the
compiled anchored case-insensitive regex decides. -/
def matchPattern (pattern text : String) : Bool :=
  if pattern = "" || text = "" then false
  else if pattern = "*" then true
  else if pattern = text then true
  else
    match compileGlob pattern.data with
    | none => false
    | some items => rmatch items text.data

/-- Fueled glob semantics; see `globSpec`. -/
def globSpecF : ℕ → List Char → List Char → Bool
  | 0, _, _ => false
  | _ + 1, [], [] => true
  | _ + 1, [], _ :: _ => false
  | fuel + 1, c :: p, s =>
    if c = '*' then
      globSpecF fuel p s ||
        (match s with
         | [] => false
         | _ :: xs => globSpecF fuel (c :: p) xs)
    else
      match s with
      | [] => false
      | x :: xs => charCI c x && globSpecF fuel p xs

/-- Modelled from the spec: the glob semantics the spec ascribes to the
matcher, in its own words — `*` matches any run (including empty) of
characters, every other character is a literal, matching is
case-insensitive.  Used only to compare the source's `matchPattern`
against the specified behaviour.  (`p.length + s.length` bounds the
recursion depth, so the fuel suffices.) -/
def globSpec (p s : List Char) : Bool :=
  globSpecF (p.length + s.length + 1) p s

/-- Fueled JavaScript-faithful glob semantics; see `globSpecJs`. -/
def globSpecJsF : ℕ → List Char → List Char → Bool
  | 0, _, _ => false
  | _ + 1, [], [] => true
  | _ + 1, [], _ :: _ => false
  | fuel + 1, c :: p, s =>
    if c = '*' then
      globSpecJsF fuel p s ||
        (match s with
         | [] => false
         | x :: xs => !isLineTerm x && globSpecJsF fuel (c :: p) xs)
    else
      match s with
      | [] => false
      | x :: xs => charCI c x && globSpecJsF fuel p xs

/-- The glob semantics the code's regex actually implements on `?`-free
patterns: like `globSpec`, except that `*` (compiled to `.*` without the
`s` flag) matches any run of non-line-terminator characters only. -/
def globSpecJs (p s : List Char) : Bool :=
  globSpecJsF (p.length + s.length + 1) p s

/-! ## JavaScript string primitives

The embedding models the JavaScript string operations the source uses
(`trim`, `split('\n')`, `startsWith`, `substring`) directly over character
lists, on the ASCII inputs these code paths handle. -/

/-- Whitespace for JavaScript `String.prototype.trim` (ASCII subset). -/
def isJsWs (c : Char) : Bool :=
  c = ' ' || c = '\t' || c = '\n' || c = '\r' ||
    c = Char.ofNat 11 || c = Char.ofNat 12

/-- JavaScript `s.trim()`. -/
def jsTrim (s : String) : String :=
  ⟨((s.data.dropWhile isJsWs).reverse.dropWhile isJsWs).reverse⟩

/-- Split a character list on a separator character; like JavaScript
`split`, an empty input yields one empty piece. -/
def splitOnChar (sep : Char) : List Char → List (List Char)
  | [] => [[]]
  | c :: rest =>
    let r := splitOnChar sep rest
    if c = sep then [] :: r
    else
      match r with
      | [] => [[c]]
      | h :: t => (c :: h) :: t

/-- JavaScript `s.split('\n')`. -/
def jsSplitLines (s : String) : List String :=
  (splitOnChar '\n' s.data).map (fun l => ⟨l⟩)

/-- JavaScript `s.startsWith(pre)`. -/
def jsStartsWith (s pre : String) : Bool := pre.data.isPrefixOf s.data

/-- JavaScript `s.substring(n)` for ASCII content. -/
def jsDrop (s : String) (n : ℕ) : String := ⟨s.data.drop n⟩

/-! ## Pricing (`usageService.js`, `UsageService.calculateCost`, lines 18–46,
and `helpers.js`, `Helpers.findMatchingLimits`, lines 434–452) -/

/-- One entry of `config/pricing.json`'s `modelPricing`: USD per 1,000 tokens
per category. -/
structure ModelPricing where
  input : ℚ
  output : ℚ
  cacheCreation : ℚ
  cacheRead : ℚ

/-- The four token counters a usage object carries (each read with `|| 0` in
the source, so an absent counter is 0 here). -/
structure TokenUsage where
  inputTokens : ℚ
  outputTokens : ℚ
  cacheCreationTokens : ℚ
  cacheReadTokens : ℚ
deriving Repr, DecidableEq

/-- `Helpers.findMatchingLimits(limitsConfig, modelName)`: falsy model name
gives `null`; else exact key first, then the first wildcard-matching key in
insertion order.  The table is the pricing object's field list in insertion
order. -/
def findMatchingLimits (limitsConfig : List (String × ModelPricing))
    (modelName : String) : Option ModelPricing :=
  if modelName = "" then none
  else
    match limitsConfig.find? (fun e => e.1 = modelName) with
    | some e => some e.2
    | none => (limitsConfig.find? (fun e => matchPattern e.1 modelName)).map (·.2)

/-- The record `UsageService.calculateCost` returns. -/
structure CostBreakdown where
  inputCost : ℚ
  outputCost : ℚ
  cacheCreationCost : ℚ
  cacheReadCost : ℚ
  totalCost : ℚ
deriving Repr, DecidableEq

/-- `UsageService.calculateCost(model, usage)`: no matching pricing entry
gives all-zero costs; otherwise each category is `tokens / 1000 * price` and
the returned record rounds each category to 6 decimals while `totalCost`
rounds the *unrounded* sum. -/
def calculateCost (modelPricing : List (String × ModelPricing))
    (model : String) (usage : TokenUsage) : CostBreakdown :=
  match findMatchingLimits modelPricing model with
  | none => ⟨0, 0, 0, 0, 0⟩
  | some pricing =>
    let inputCost := usage.inputTokens / 1000 * pricing.input
    let outputCost := usage.outputTokens / 1000 * pricing.output
    let cacheCreationCost := usage.cacheCreationTokens / 1000 * pricing.cacheCreation
    let cacheReadCost := usage.cacheReadTokens / 1000 * pricing.cacheRead
    let totalCost := inputCost + outputCost + cacheCreationCost + cacheReadCost
    ⟨round6 inputCost, round6 outputCost, round6 cacheCreationCost,
     round6 cacheReadCost, round6 totalCost⟩

/-! ## Daily usage aggregation (`usageService.js`, `UsageService.getDailyUsage`
lines 115–133 and `aggregateUsageRecords` lines 347–420)

The file-system read is abstracted: the day file's content is an
`Option String`, `none` standing for `ENOENT` (the only error code the
source's `catch` converts into an empty aggregation; every other exception —
in particular a `SyntaxError` from `JSON.parse` on a malformed line — is
re-thrown, modelled as `Except.error`).

The model keeps the top-level counters of the aggregation record.  The
`byModel`/`byHour` buckets and the derived averages (`avgDuration`,
`errorRate`, `avgCost`), which no claim mentions, are projected away.
Counter fields that the source sums without a `|| 0` guard are `Option ℚ`
(`none` models the `NaN` a missing field would inject); the cost fields are
guarded with `|| 0` in the source and stay `ℚ`. -/

/-- Top-level counters of the aggregation record built by
`aggregateUsageRecords` (projection of the full record, see section note). -/
structure UsageAggregation where
  totalRequests : ℕ
  totalTokens : Option ℚ
  inputTokens : Option ℚ
  outputTokens : Option ℚ
  cacheCreationTokens : Option ℚ
  cacheReadTokens : Option ℚ
  totalDuration : Option ℚ
  totalCost : ℚ
  inputCost : ℚ
  outputCost : ℚ
  cacheCreationCost : ℚ
  cacheReadCost : ℚ
  errorCount : ℕ
deriving Repr, DecidableEq

/-- `NaN`-propagating addition on unguarded counters. -/
def optAdd (a b : Option ℚ) : Option ℚ :=
  match a, b with
  | some x, some y => some (x + y)
  | _, _ => none

/-- `UsageService.getEmptyUsageAggregation()` (top-level counters). -/
def emptyUsageAggregation : UsageAggregation :=
  ⟨0, some 0, some 0, some 0, some 0, some 0, some 0, 0, 0, 0, 0, 0, 0⟩

/-- One `records.forEach` iteration of `aggregateUsageRecords`. -/
def aggregateRecord (a : UsageAggregation) (record : Json) : UsageAggregation where
  totalRequests := a.totalRequests + 1
  totalTokens := optAdd a.totalTokens (record.getNum? "totalTokens")
  inputTokens := optAdd a.inputTokens (record.getNum? "inputTokens")
  outputTokens := optAdd a.outputTokens (record.getNum? "outputTokens")
  cacheCreationTokens := optAdd a.cacheCreationTokens (record.getNum? "cacheCreationTokens")
  cacheReadTokens := optAdd a.cacheReadTokens (record.getNum? "cacheReadTokens")
  totalDuration := optAdd a.totalDuration (record.getNum? "duration")
  totalCost := a.totalCost + record.getNumOr0 "totalCost"
  inputCost := a.inputCost + record.getNumOr0 "inputCost"
  outputCost := a.outputCost + record.getNumOr0 "outputCost"
  cacheCreationCost := a.cacheCreationCost + record.getNumOr0 "cacheCreationCost"
  cacheReadCost := a.cacheReadCost + record.getNumOr0 "cacheReadCost"
  errorCount :=
    a.errorCount +
      (if (match record.getNum? "statusCode" with
           | some q => decide (400 ≤ q)
           | none => false) then 1 else 0)

/-- `UsageService.aggregateUsageRecords(records)` (top-level counters). -/
def aggregateUsageRecords (records : List Json) : UsageAggregation :=
  records.foldl aggregateRecord emptyUsageAggregation

/-- The non-blank lines of the day file, as the source selects them:
`content.trim().split('\n').filter(line => line.trim())`. -/
def dayFileLines (content : String) : List String :=
  (jsSplitLines (jsTrim content)).filter (fun line => jsTrim line ≠ "")

/-- The `.map(line => JSON.parse(line))` of `getDailyUsage`: parse every
line, failing on the first malformed one (where the source throws). -/
def parseAllLines : List String → Option (List Json)
  | [] => some []
  | l :: ls =>
    match Json.parse l with
    | none => none
    | some j =>
      match parseAllLines ls with
      | none => none
      | some js => some (j :: js)

/-- `UsageService.getDailyUsage`: `none` content (ENOENT) gives the empty
aggregation; otherwise every non-blank line goes through `JSON.parse`, and a
single malformed line makes the whole call throw (`Except.error`). -/
def getDailyUsage (content : Option String) : Except Unit UsageAggregation :=
  match content with
  | none => .ok emptyUsageAggregation
  | some c =>
    match parseAllLines (dayFileLines c) with
    | none => .error ()
    | some records => .ok (aggregateUsageRecords records)

/-! ## Token-usage extraction (`helpers.js`, `Helpers.extractTokenUsage`,
lines 38–107, and `parseSSEUsageData`, lines 110–142) -/

/-- Does `sub` occur as a contiguous run inside `l`? -/
def listContains (sub : List Char) : List Char → Bool
  | [] => sub.isEmpty
  | c :: rest => sub.isPrefixOf (c :: rest) || listContains sub rest

/-- JavaScript `String.prototype.includes`. -/
def jsIncludes (s sub : String) : Bool := listContains sub.data s.data

/-- Build a `TokenUsage` from a usage JSON object, each field `|| 0`. -/
def usageOfJson (u : Json) : TokenUsage :=
  ⟨u.getNumOr0 "input_tokens", u.getNumOr0 "output_tokens",
   u.getNumOr0 "cache_creation_input_tokens", u.getNumOr0 "cache_read_input_tokens"⟩

/-- `Helpers.parseSSEUsageData(eventType, eventData)`. -/
def parseSSEUsageData (eventType eventData : String) : Option TokenUsage :=
  if eventType = "message_start" then
    match Json.parse eventData with
    | none => none
    | some j =>
      match (j.getField "message").bind (fun m => m.getField "usage") with
      | some u => if u.truthy then some (usageOfJson u) else none
      | none => none
  else if eventType = "message_delta" then
    match Json.parse eventData with
    | none => none
    | some j =>
      match j.getField "usage" with
      | some u => if u.truthy then some (usageOfJson u) else none
      | none => none
  else none

/-- Loop state of the SSE walk in `extractTokenUsage`: the pending event
name (`""` for JavaScript `null`), the pending `data:` payload, and the
running usage. -/
structure SseWalkState where
  currentEvent : String
  eventData : String
  totalUsage : TokenUsage

/-- One iteration of the `for (const line of lines)` loop. -/
def sseWalkStep (st : SseWalkState) (line : String) : SseWalkState :=
  let t := jsTrim line
  if jsStartsWith t "event: " then
    let processed :=
      if st.currentEvent ≠ "" ∧ st.eventData ≠ "" then
        match parseSSEUsageData st.currentEvent st.eventData with
        | some usage =>
          if st.currentEvent = "message_start" ∨ st.currentEvent = "message_delta" then
            usage
          else st.totalUsage
        | none => st.totalUsage
      else st.totalUsage
    ⟨jsDrop t 7, "", processed⟩
  else if jsStartsWith t "data: " then
    ⟨st.currentEvent, jsDrop t 6, st.totalUsage⟩
  else st

/-- The SSE branch of `extractTokenUsage` (lines 53–101). -/
def extractSseUsage (responseBody : String) : Option TokenUsage :=
  if jsIncludes responseBody "event: message_start" ||
     jsIncludes responseBody "event: message_delta" then
    let lines := jsSplitLines responseBody
    let st := lines.foldl sseWalkStep ⟨"", "", ⟨0, 0, 0, 0⟩⟩
    let totalUsage :=
      if st.currentEvent ≠ "" ∧ st.eventData ≠ "" then
        match parseSSEUsageData st.currentEvent st.eventData with
        | some usage => usage
        | none => st.totalUsage
      else st.totalUsage
    if totalUsage.inputTokens > 0 ∨ totalUsage.outputTokens > 0 ∨
       totalUsage.cacheCreationTokens > 0 ∨ totalUsage.cacheReadTokens > 0 then
      some totalUsage
    else none
  else none

/-- `Helpers.extractTokenUsage(responseBody)`: a parsed JSON document with a
truthy `usage` field yields that usage; otherwise the SSE walk; otherwise
`null`. -/
def extractTokenUsage (responseBody : String) : Option TokenUsage :=
  match Json.parse responseBody with
  | some parsed =>
    match parsed.getField "usage" with
    | some u =>
      if u.truthy then some (usageOfJson u) else extractSseUsage responseBody
    | none => extractSseUsage responseBody
  | none => extractSseUsage responseBody

/-! ## Limit guard (`usageService.js`, `UsageService.checkLimitsExceeded`,
lines 232–265, and the guard call in `proxy.js`, `ProxyCore.handleRequest`,
lines 39–54)

`checkLimitsExceeded` takes the tenant's configured `limits.daily.maxUSD`
(`none` when any of `tenant`, `limits`, `daily` or `maxUSD` is absent) and
today's aggregated `totalCost` (the successfully computed value of
`getDailyUsage(tenantId, today).totalCost || 0`). -/

/-- `UsageService.checkLimitsExceeded(tenantId, model, tokensToAdd)`: `true`
exactly when a (truthy) cap exists and today's cost plus the projected cost
strictly exceeds it.  A configured cap of `0` is falsy in the source's
`!tenant.limits.daily.maxUSD` test and therefore means *no* cap. -/
def checkLimitsExceeded (maxUSD : Option ℚ) (todayTotalCost : ℚ)
    (modelPricing : List (String × ModelPricing)) (model : String)
    (tokensToAdd : TokenUsage) : Bool :=
  match maxUSD with
  | none => false
  | some cap =>
    if cap = 0 then false
    else
      let additionalCost := (calculateCost modelPricing model tokensToAdd).totalCost
      decide (todayTotalCost + additionalCost > cap)

/-- Outcome of the limit-guard phase of `ProxyCore.handleRequest` (lines
39–54): whether `checkLimitsExceeded` was invoked at all, and the error
response sent (error type and HTTP status), `none` meaning the request
proceeds to `selectUpstream`. -/
structure GuardPhaseResult where
  guardInvoked : Bool
  response : Option (String × ℕ)
deriving Repr, DecidableEq

/-- The limit-guard phase of `ProxyCore.handleRequest`: the guard runs only
when a model was extracted *and* `Helpers.extractTokenUsage(requestBody)`
returns a usage object; on `exceeded` the client gets 429
`limit_exceeded`, otherwise the request proceeds to upstream selection. -/
def limitGuardPhase (maxUSD : Option ℚ) (todayTotalCost : ℚ)
    (modelPricing : List (String × ModelPricing)) (model : Option String)
    (requestBody : String) : GuardPhaseResult :=
  match model with
  | none => ⟨false, none⟩
  | some m =>
    match extractTokenUsage requestBody with
    | none => ⟨false, none⟩
    | some usage =>
      if checkLimitsExceeded maxUSD todayTotalCost modelPricing m usage then
        ⟨true, some ("limit_exceeded", 429)⟩
      else ⟨true, none⟩

/-! ## Anthropic proxy response path (`proxy.js`, `ProxyCore.proxyRequest`,
lines 100–188)

The client response object is modelled by the ordered list of actions the
proxy performs on it.  Response bodies passed to `res.end` are carried as
`Json` values; the source serialises them with `JSON.stringify(..., null, 2)`,
which only adds whitespace. -/

/-- One action on the client response object. -/
inductive ClientAction where
  | writeHead (status : ℕ) (headers : List (String × String))
  | write (chunk : String)
  | endResponse (body : Option Json)

/-- `Helpers.createErrorResponse(error, message, statusCode, requestId)`
(helpers.js lines 145–154): the JSON error body (the status code is carried
by the accompanying `writeHead`). -/
def createErrorResponse (errorType message : String) (requestId : Option String)
    (timestamp : String) : Json :=
  .obj [("error", .obj
    [("type", .str errorType),
     ("message", .str message),
     ("requestId", match requestId with | some r => .str r | none => .null),
     ("timestamp", .str timestamp)])]

/-- What the upstream request produces, as observed by the two callbacks the
source installs: the response callback (`proxyReq = proxyModule.request(options,
(proxyRes) => ...)`) and the error callback (`proxyReq.on('error', ...)`). -/
inductive UpstreamOutcome where
  | response (status : ℕ) (headers : List (String × String)) (chunks : List String)
  | errorBeforeResponse (message : String)
  | errorAfterChunks (status : ℕ) (headers : List (String × String))
      (chunks : List String) (message : String)

/-- The actions `ProxyCore.proxyRequest` performs on the client response for
a given upstream outcome.  On a response: forward status and headers once,
stream each chunk, then `res.end()`.  On an error with no headers sent:
502 with the `upstream_error` JSON body.  On an error after the response
started (`res.headersSent`): nothing further is written. -/
def proxyRequestActions (requestId timestamp : String) (o : UpstreamOutcome) :
    List ClientAction :=
  match o with
  | .response status headers chunks =>
    .writeHead status headers :: chunks.map .write ++ [.endResponse none]
  | .errorBeforeResponse message =>
    [.writeHead 502 [("Content-Type", "application/json")],
     .endResponse (some (createErrorResponse "upstream_error"
       ("上游服务器错误: " ++ message) (some requestId) timestamp))]
  | .errorAfterChunks status headers chunks _ =>
    .writeHead status headers :: chunks.map .write

/-- Number of `writeHead` calls in an action list. -/
def countWriteHead (actions : List ClientAction) : ℕ :=
  actions.countP (fun a => match a with | .writeHead _ _ => true | _ => false)

/-! ## OpenAI non-streaming layer (`proxy.js`, `OpenAICompatLayer.
handleNonStreamingRequest`, and `formatConverter.js`,
`FormatConverter.convertNonStreamingResponse`, lines 70–112)

`generateId()` (`Math.random`) and `Math.floor(Date.now() / 1000)` are
non-deterministic in the source and become parameters `chatId` and
`created`. -/

/-- The text pulled out of one content item: `item.text`, where
`Array.prototype.join` renders a missing field as the empty string. -/
def contentItemText (item : Json) : String :=
  match item.getField "text" with
  | some (.str s) => s
  | _ => ""

/-- `FormatConverter.convertNonStreamingResponse(claudeResponse)`: parse the
buffered body (a parse failure throws, modelled as `Except.error`), then
build the `chat.completion` object.  `choices` gains its single entry only
when the document has an array-valued `content` field; `usage` is copied
when a truthy `usage` field exists. -/
def convertNonStreamingResponse (chatId : String) (created : ℤ)
    (claudeResponse : String) : Except Unit Json :=
  match Json.parse claudeResponse with
  | none => .error ()
  | some response =>
    let model : Json :=
      match response.getField "model" with
      | some (.str m) => if m = "" then .str "gpt-4" else .str m
      | _ => .str "gpt-4"
    let choices : List Json :=
      match response.getField "content" with
      | some (.arr items) =>
        let textContent :=
          String.join ((items.filter
            (fun item =>
              match item.getField "type" with
              | some (.str t) => t = "text"
              | _ => false)).map contentItemText)
        let finishReason : String :=
          match response.getField "stop_reason" with
          | some (.str r) => if r = "end_turn" then "stop" else "length"
          | _ => "length"
        [.obj [("index", .num 0),
               ("message", .obj [("role", .str "assistant"),
                                 ("content", .str textContent)]),
               ("finish_reason", .str finishReason)]]
      | _ => []
    let base : List (String × Json) :=
      [("id", .str chatId), ("object", .str "chat.completion"),
       ("created", .num (created : ℚ)), ("model", model),
       ("choices", .arr choices)]
    let withUsage : List (String × Json) :=
      match response.getField "usage" with
      | some u =>
        if u.truthy then
          base ++ [("usage", .obj
            [("prompt_tokens", .num (u.getNumOr0 "input_tokens")),
             ("completion_tokens", .num (u.getNumOr0 "output_tokens")),
             ("total_tokens", .num (u.getNumOr0 "input_tokens" +
                                    u.getNumOr0 "output_tokens"))])]
        else base
      | none => base
    .ok (.obj withUsage)

/-- The response data the interposed `res.write`/`res.end` collect while the
proxy core streams into them (`writeHead` is suppressed and emits nothing;
`res.end()`'s absent argument contributes nothing; a `Json` end body stands
for its serialisation and never occurs in the traces the theorems use). -/
def collectedResponseData (proxyActions : List ClientAction) : String :=
  String.join (proxyActions.filterMap
    (fun a => match a with
      | .write chunk => some chunk
      | _ => none))

/-- `OpenAICompatLayer.handleNonStreamingRequest`, response side: the proxy
core's actions are intercepted; once the core calls `res.end`, the buffered
body is converted and the layer itself answers with status 200 and
`Content-Type: application/json` (plus a `Content-Length` computed from the
serialised body, elided here), or with a 500 `internal_error` JSON when the
conversion throws. -/
def openaiNonStreamingReply (chatId : String) (created : ℤ) (requestId : String)
    (proxyActions : List ClientAction) : List ClientAction :=
  match convertNonStreamingResponse chatId created (collectedResponseData proxyActions) with
  | .ok openaiResponse =>
    [.writeHead 200 [("Content-Type", "application/json")],
     .endResponse (some openaiResponse)]
  | .error _ =>
    [.writeHead 500 [("Content-Type", "application/json")],
     .endResponse (some (.obj
       [("error", .obj [("message", .str "响应格式转换失败"),
                        ("type", .str "internal_error"),
                        ("code", .null)]),
        ("requestId", .str requestId)]))]

/-! ## Load balancer (`loadBalancer.js`) -/

/-- An upstream as the balancer sees it (the fields the embedded functions
read; `weight` is `none` when the config omits it). -/
structure Upstream where
  id : String
  weight : Option ℕ
  enabled : Bool
deriving Repr, DecidableEq

/-- The probe interval hard-coded in `LoadBalancer.startHealthCheck`
(line 33): `const interval = 300000`.  The adjacent comment says 30 seconds
(`30秒检查一次`), and the config-manager default `healthCheck.interval` is
30000, but the scheduled value is 300000 ms. -/
def healthCheckIntervalMs : ℕ := 300000

/-- `LoadBalancer.checkUpstreamHealth`: a probe marks the upstream healthy
exactly when `res.statusCode >= 200 && res.statusCode < 400`; the `error`
and `timeout` callbacks mark it unhealthy. -/
def isHealthyStatus (statusCode : ℕ) : Bool := 200 ≤ statusCode && statusCode < 400

/-- `upstream.healthCheck?.path || '/health'` (line 52). -/
def healthCheckPath (configured : Option String) : String :=
  match configured with
  | some p => if p = "" then "/health" else p
  | none => "/health"

/-- `upstream.healthCheck?.timeout || 5000` (line 53). -/
def healthCheckTimeoutMs (configured : Option ℕ) : ℕ :=
  match configured with
  | some t => if t = 0 then 5000 else t
  | none => 5000

/-- `LoadBalancer.updateUpstreams` (lines 20–24): `this.upstreams` is the
configured list filtered to `enabled`. -/
def updateUpstreams (configured : List Upstream) : List Upstream :=
  configured.filter (·.enabled)

/-- `LoadBalancer.getHealthyUpstreams` (lines 107–112): keep upstreams whose
health entry is not `false`; an absent entry (`undefined`, health unknown)
counts as healthy. -/
def getHealthyUpstreams (upstreams : List Upstream)
    (healthStatus : String → Option Bool) : List Upstream :=
  upstreams.filter (fun u => healthStatus u.id ≠ some false)

/-- The `throw new Error('没有可用的健康上游服务')` of `selectUpstream`
line 128 — the spec's `no_upstream` error. -/
inductive SelectUpstreamError where
  | noUpstream
deriving Repr, DecidableEq

/-- The candidate-set computation of `LoadBalancer.selectUpstream` (lines
118–131): start from the enabled upstreams; when health checking is enabled
restrict to those not marked unhealthy; when that leaves nothing, fall back
to all enabled upstreams if `failoverEnabled`, otherwise throw. -/
def selectCandidates (healthCheckEnabled failoverEnabled : Bool)
    (upstreams : List Upstream) (healthStatus : String → Option Bool) :
    Except SelectUpstreamError (List Upstream) :=
  if healthCheckEnabled then
    let healthy := getHealthyUpstreams upstreams healthStatus
    if healthy.isEmpty then
      if failoverEnabled then .ok upstreams
      else .error .noUpstream
    else .ok healthy
  else .ok upstreams

/-! ## Smooth weighted round-robin
(`loadBalancer.js`, `LoadBalancer.weightedRoundRobinSelection`, lines 160–202)

`this.weightCounters` is a `Map` keyed by upstream id, created at the first
call with a `0` entry per candidate; it is modelled as a total function
`String → ℤ` that starts constantly `0` (only candidate ids are ever read
or written). -/

/-- `upstream.weight || 100`: an absent weight — and, `0` being falsy, a
configured weight of `0` — counts as 100. -/
def effWeight (u : Upstream) : ℕ :=
  match u.weight with
  | none => 100
  | some w => if w = 0 then 100 else w

/-- `upstreams.reduce((sum, u) => sum + (u.weight || 100), 0)` (line 166). -/
def totalWeight (us : List Upstream) : ℕ := (us.map effWeight).sum

/-- The smooth-WRR per-candidate counters. -/
def WeightCounters : Type := String → ℤ

/-- `Map.set` on the counters. -/
def updateCounter (cnt : WeightCounters) (id : String) (v : ℤ) : WeightCounters :=
  fun x => if x = id then v else cnt x

/-- Accumulator of the `upstreams.forEach` scan (lines 184–192): the
currently selected upstream, the running maximum, and the counters updated
so far. -/
structure WrrScanAcc where
  selected : Option Upstream
  maxCurrentWeight : ℤ
  counters : WeightCounters

/-- One `forEach` iteration: add the upstream's weight to its counter and
take it as selected when the new value strictly beats the running maximum
(so ties keep the earlier upstream). -/
def wrrScanStep (acc : WrrScanAcc) (u : Upstream) : WrrScanAcc :=
  let currentWeight := acc.counters u.id + (effWeight u : ℤ)
  let counters := updateCounter acc.counters u.id currentWeight
  if currentWeight > acc.maxCurrentWeight then ⟨some u, currentWeight, counters⟩
  else ⟨acc.selected, acc.maxCurrentWeight, counters⟩

/-- The whole scan, from `selected = null`, `maxCurrentWeight = -1`. -/
def wrrScan (us : List Upstream) (cnt : WeightCounters) : WrrScanAcc :=
  us.foldl wrrScanStep ⟨none, -1, cnt⟩

/-- Mutable selection state of the balancer: the WRR counters and the plain
round-robin index. -/
structure LBState where
  counters : WeightCounters
  currentIndex : ℕ

/-- Counters start at zero and the round-robin index at 0. -/
def initialLBState : LBState := ⟨fun _ => 0, 0⟩

/-- The `throw new Error('没有可用的上游服务')` of the strategy functions. -/
inductive StrategyError where
  | noAvailable
deriving Repr, DecidableEq

/-- `LoadBalancer.roundRobinSelection` (lines 148–158). -/
def roundRobinSelection (us : List Upstream) (st : LBState) :
    Except StrategyError (Upstream × LBState) :=
  match us with
  | [] => .error .noAvailable
  | u :: rest =>
    let n := (u :: rest).length
    .ok ((u :: rest).get ⟨st.currentIndex % n, Nat.mod_lt _ (Nat.succ_pos _)⟩,
         ⟨st.counters, (st.currentIndex + 1) % n⟩)

/-- `LoadBalancer.weightedRoundRobinSelection` (lines 160–202): empty list
throws; zero total weight falls back to plain round-robin; otherwise scan,
then subtract the total weight from the selected upstream's counter; a
`null` selection (never reached from the initial state) returns
`upstreams[0]` without subtracting. -/
def weightedRoundRobinSelection (us : List Upstream) (st : LBState) :
    Except StrategyError (Upstream × LBState) :=
  match us with
  | [] => .error .noAvailable
  | u0 :: rest =>
    if totalWeight (u0 :: rest) = 0 then roundRobinSelection (u0 :: rest) st
    else
      let acc := wrrScan (u0 :: rest) st.counters
      match acc.selected with
      | some s =>
        .ok (s, ⟨updateCounter acc.counters s.id
                   (acc.counters s.id - (totalWeight (u0 :: rest) : ℤ)),
                 st.currentIndex⟩)
      | none => .ok (u0, ⟨acc.counters, st.currentIndex⟩)

/-- Iterate the weighted-round-robin selection `n` times over a fixed
candidate list from a given state, collecting the selections in order. -/
def wrrRunFrom (us : List Upstream) (st : LBState) : ℕ → LBState × List Upstream
  | 0 => (st, [])
  | n + 1 =>
    let p := wrrRunFrom us st n
    match weightedRoundRobinSelection us p.1 with
    | .ok q => (q.2, p.2 ++ [q.1])
    | .error _ => (p.1, p.2)

/-- Iterate the weighted-round-robin selection `n` times from the initial
state (counters all zero, as the first call creates them). -/
def wrrRun (us : List Upstream) (n : ℕ) : LBState × List Upstream :=
  wrrRunFrom us initialLBState n

/-- How many of the given selections are the upstream with the given id. -/
def selCount (sels : List Upstream) (upstreamId : String) : ℕ :=
  sels.countP (fun u => u.id = upstreamId)

/-! ### Proof-support definitions (not source functions) -/

/-- The compiled item a single wildcard-free, question-mark-free pattern
character denotes. -/
def itemOf (c : Char) : RItem := if c = '*' then .star else .lit c

/-- Pure first-strict-maximum fold, the selection component of `wrrScan`
with the counter bookkeeping stripped away. -/
def firstMax (f : Upstream → ℤ) (us : List Upstream)
    (sel : Option Upstream) (m : ℤ) : Option Upstream × ℤ :=
  us.foldl (fun p u => if f u > p.2 then (some u, f u) else p) (sel, m)

/-! # Theorems

General helper lemmas first, then one named theorem (with witness or
counterexample where applicable) per claim. -/

theorem charCI_refl (c : Char) : charCI c c = true := by simp [charCI]

theorem compileGlob_go_noQuestion (p : List Char) (acc : List RItem)
    (h : '?' ∉ p) : compileGlob.go p acc = some ((p.map itemOf).reverse ++ acc) := by
  induction p generalizing acc with
  | nil => simp [compileGlob.go]
  | cons c cs ih =>
    have hc : ¬(c = '?') := fun hcq => h (hcq ▸ List.mem_cons_self _ _)
    have hcs : '?' ∉ cs := fun hm => h (List.mem_cons_of_mem _ hm)
    by_cases hstar : c = '*'
    · subst hstar
      simp [compileGlob.go, itemOf, ih _ hcs]
    · simp [compileGlob.go, hstar, hc, itemOf, ih _ hcs]

theorem compileGlob_noQuestion (p : List Char) (h : '?' ∉ p) :
    compileGlob p = some (p.map itemOf) := by
  simp [compileGlob, compileGlob_go_noQuestion p [] h]

theorem rmatchF_map_itemOf :
    ∀ (fuel : ℕ) (p s : List Char),
      rmatchF fuel (p.map itemOf) s = globSpecJsF fuel p s := by
  intro fuel
  induction fuel with
  | zero => intro p s; rfl
  | succ n ih =>
    intro p s
    cases p with
    | nil => cases s <;> simp [rmatchF, globSpecJsF]
    | cons c p' =>
      by_cases hc : c = '*'
      · subst hc
        have hstar : itemOf '*' = RItem.star := by simp [itemOf]
        cases s with
        | nil => simp [rmatchF, globSpecJsF, hstar, ih]
        | cons x xs =>
          have ih2 := ih ('*' :: p') xs
          simp only [List.map_cons, hstar] at ih2 ⊢
          simp [rmatchF, globSpecJsF, ih, ih2]
      · have hlit : itemOf c = RItem.lit c := by simp [itemOf, hc]
        cases s with
        | nil => simp [rmatchF, globSpecJsF, hlit, hc]
        | cons x xs => simp [rmatchF, globSpecJsF, hlit, hc, ih]

theorem rmatch_map_itemOf (p s : List Char) :
    rmatch (p.map itemOf) s = globSpecJs p s := by
  simp [rmatch, globSpecJs, rmatchF_map_itemOf]

theorem globSpecF_star :
    ∀ (s : List Char) (fuel : ℕ), s.length + 1 < fuel →
      globSpecF fuel ['*'] s = true := by
  intro s
  induction s with
  | nil =>
    intro fuel h
    obtain ⟨m, rfl⟩ : ∃ m, fuel = m + 2 := ⟨fuel - 2, by omega⟩
    simp [globSpecF]
  | cons x xs ih =>
    intro fuel h
    obtain ⟨m, rfl⟩ : ∃ m, fuel = m + 1 := ⟨fuel - 1, by omega⟩
    have h2 : globSpecF m ['*'] xs = true := by
      refine ih m ?_
      simp only [List.length_cons] at h
      omega
    simp [globSpecF, h2]

theorem globSpec_star (s : List Char) : globSpec ['*'] s = true := by
  refine globSpecF_star s _ ?_
  simp

theorem globSpecF_self :
    ∀ (p : List Char) (fuel : ℕ), 2 * p.length < fuel →
      globSpecF fuel p p = true := by
  intro p
  induction p with
  | nil =>
    intro fuel h
    obtain ⟨m, rfl⟩ : ∃ m, fuel = m + 1 := ⟨fuel - 1, by omega⟩
    simp [globSpecF]
  | cons c p' ih =>
    intro fuel h
    simp only [List.length_cons] at h
    obtain ⟨m, rfl⟩ : ∃ m, fuel = m + 2 := ⟨fuel - 2, by omega⟩
    by_cases hc : c = '*'
    · subst hc
      have h1 : globSpecF m p' p' = true := ih m (by omega)
      have h2 : globSpecF (m + 1) ('*' :: p') p' = true := by
        simp [globSpecF, h1]
      rw [show globSpecF (m + 2) ('*' :: p') ('*' :: p') =
            (globSpecF (m + 1) p' ('*' :: p') ||
             globSpecF (m + 1) ('*' :: p') p') from rfl,
          h2, Bool.or_true]
    · have h1 : globSpecF (m + 1) p' p' = true := ih (m + 1) (by omega)
      simp [globSpecF, hc, charCI_refl, h1]

theorem globSpec_self (p : List Char) : globSpec p p = true := by
  refine globSpecF_self p _ ?_
  omega

theorem globSpecJsF_self :
    ∀ (p : List Char) (fuel : ℕ), 2 * p.length < fuel →
      globSpecJsF fuel p p = true := by
  intro p
  induction p with
  | nil =>
    intro fuel h
    obtain ⟨m, rfl⟩ : ∃ m, fuel = m + 1 := ⟨fuel - 1, by omega⟩
    simp [globSpecJsF]
  | cons c p' ih =>
    intro fuel h
    simp only [List.length_cons] at h
    obtain ⟨m, rfl⟩ : ∃ m, fuel = m + 2 := ⟨fuel - 2, by omega⟩
    by_cases hc : c = '*'
    · subst hc
      have h1 : globSpecJsF m p' p' = true := ih m (by omega)
      have h2 : globSpecJsF (m + 1) ('*' :: p') p' = true := by
        simp [globSpecJsF, h1]
      rw [show globSpecJsF (m + 2) ('*' :: p') ('*' :: p') =
            (globSpecJsF (m + 1) p' ('*' :: p') ||
             (!isLineTerm '*' && globSpecJsF (m + 1) ('*' :: p') p')) from rfl,
          h2, show isLineTerm '*' = false from rfl]
      simp
    · have h1 : globSpecJsF (m + 1) p' p' = true := ih (m + 1) (by omega)
      simp [globSpecJsF, hc, charCI_refl, h1]

theorem globSpecJs_self (p : List Char) : globSpecJs p p = true := by
  refine globSpecJsF_self p _ ?_
  omega

theorem globSpecJsF_eq_globSpecF :
    ∀ (fuel : ℕ) (p s : List Char), (∀ c ∈ s, isLineTerm c = false) →
      globSpecJsF fuel p s = globSpecF fuel p s := by
  intro fuel
  induction fuel with
  | zero => intro p s _; rfl
  | succ n ih =>
    intro p s hs
    cases p with
    | nil => cases s <;> simp [globSpecJsF, globSpecF]
    | cons c p' =>
      by_cases hc : c = '*'
      · subst hc
        cases s with
        | nil =>
          simp [globSpecJsF, globSpecF,
            ih p' [] (fun c hc => absurd hc (List.not_mem_nil c))]
        | cons x xs =>
          have h1 := ih p' (x :: xs) hs
          have h2 := ih ('*' :: p') xs
            (fun c hc => hs c (List.mem_cons_of_mem x hc))
          have hx : isLineTerm x = false := hs x (List.mem_cons_self x xs)
          simp [globSpecJsF, globSpecF, h1, h2, hx]
      · cases s with
        | nil => simp [globSpecJsF, globSpecF, hc]
        | cons x xs =>
          have h1 := ih p' xs (fun c hc => hs c (List.mem_cons_of_mem x hc))
          simp [globSpecJsF, globSpecF, hc, h1]

theorem globSpecJs_eq_globSpec (p s : List Char)
    (hs : ∀ c ∈ s, isLineTerm c = false) : globSpecJs p s = globSpec p s :=
  globSpecJsF_eq_globSpecF _ p s hs

theorem string_mk_eq_empty_iff (p : List Char) : (⟨p⟩ : String) = "" ↔ p = [] := by
  constructor
  · intro h
    have := congrArg String.data h
    simpa using this
  · intro h; subst h; rfl

theorem string_mk_inj (p t : List Char) : (⟨p⟩ : String) = (⟨t⟩ : String) ↔ p = t := by
  constructor
  · intro h
    have := congrArg String.data h
    simpa using this
  · intro h; subst h; rfl

theorem matchPattern_eq_globSpecJs (p t : List Char) (hp : p ≠ []) (ht : t ≠ [])
    (hq : '?' ∉ p) (hnb : p ≠ ['*']) : matchPattern ⟨p⟩ ⟨t⟩ = globSpecJs p t := by
  have hpe : ¬((⟨p⟩ : String) = "") := fun h => hp ((string_mk_eq_empty_iff p).mp h)
  have hte : ¬((⟨t⟩ : String) = "") := fun h => ht ((string_mk_eq_empty_iff t).mp h)
  have hstar : ¬((⟨p⟩ : String) = "*") := fun h => hnb (by
    have := congrArg String.data h
    simpa using this)
  unfold matchPattern
  rw [if_neg (by simp [hpe, hte]), if_neg hstar]
  by_cases heq : (⟨p⟩ : String) = (⟨t⟩ : String)
  · rw [if_pos heq]
    have hpt : p = t := (string_mk_inj p t).mp heq
    subst hpt
    exact (globSpecJs_self p).symm
  · rw [if_neg heq]
    have hdata : (⟨p⟩ : String).data = p := rfl
    rw [hdata, compileGlob_noQuestion p hq]
    show rmatch (p.map itemOf) t = globSpecJs p t
    exact rmatch_map_itemOf p t

/-- C4: the claim asserts `match(pattern, text)` treats `*` as matching any
run (including the empty run), treats every other regex metacharacter as a
literal, matches case-insensitively, and in particular that
`match("*", text)` is true for *every* text including the empty string.
This counterexample refutes it: the source begins with
`if (!pattern || !text) return false`, and the empty string is falsy, so
`matchPattern("*", "")` is `false` (while the spec's own glob semantics
`globSpec` makes `*` match the empty text). -/
theorem C4_counterexample_star_empty :
    matchPattern "*" "" = false ∧ globSpec "*".data "".data = true := by
  constructor
  · decide
  · decide

/-- C4 (amended): on *non-empty* pattern and text, with the pattern free of
`?` (which the source fails to escape, leaving it a regex quantifier rather
than a literal) and other than the bare `"*"` (answered `true` by a
shortcut before the regex is built), `matchPattern` agrees exactly with the
case-insensitive glob semantics `globSpecJs`, in which `*` matches any run
of *non-line-terminator* characters: the compiled `.*` uses JavaScript `.`
without the `s` flag, which cannot match LF, CR, U+2028 or U+2029.  On
texts containing no line terminator — every real model name — this
coincides with the spec's `*`-matches-any-run semantics `globSpec`.
`match("*", t)` is true for every non-empty `t`; the spec's concrete
examples hold; an empty pattern or empty text always yields `false`; and
the spec's any-run-of-characters reading fails across a newline:
`match("*a", "\na")` is `false` in the code though `globSpec` accepts
it. -/
theorem C4_matchPattern_amended :
    (∀ p t : List Char, p ≠ [] → t ≠ [] → '?' ∉ p → p ≠ ['*'] →
      matchPattern ⟨p⟩ ⟨t⟩ = globSpecJs p t) ∧
    (∀ p t : List Char, (∀ c ∈ t, isLineTerm c = false) →
      globSpecJs p t = globSpec p t) ∧
    matchPattern "*sonnet*" "claude-3-5-sonnet-20241022" = true ∧
    matchPattern "*haiku*" "claude-sonnet-4" = false ∧
    (∀ t : String, t ≠ "" → matchPattern "*" t = true) ∧
    (∀ p : String, matchPattern p "" = false) ∧
    (∀ t : String, matchPattern "" t = false) ∧
    matchPattern "*a" "\na" = false ∧ globSpec "*a".data "\na".data = true := by
  refine ⟨matchPattern_eq_globSpecJs, fun p t hs => globSpecJs_eq_globSpec p t hs,
    by decide, by decide, ?_, ?_, ?_, by decide, by decide⟩
  · intro t ht
    simp [matchPattern, ht]
  · intro p
    simp [matchPattern]
  · intro t
    simp [matchPattern]

/-- C4 witness: the amended theorem applied at concrete inputs — a
case-insensitive exact match, the agreement of the two glob semantics on a
line-terminator-free text, and the bare-star shortcut. -/
theorem C4_witness :
    matchPattern "Sonnet" "sonnet" = globSpecJs "Sonnet".data "sonnet".data ∧
    globSpecJs "Sonnet".data "sonnet".data = globSpec "Sonnet".data "sonnet".data ∧
    matchPattern "*" "x" = true :=
  ⟨C4_matchPattern_amended.1 "Sonnet".data "sonnet".data
      (by decide) (by decide) (by decide) (by decide),
   C4_matchPattern_amended.2.1 "Sonnet".data "sonnet".data (by decide),
   C4_matchPattern_amended.2.2.2.2.1 "x" (by decide)⟩

theorem jsRound_eq (q : ℚ) : jsRound q = ⌊q + 1/2⌋ := by
  rw [jsRound, Rat.floor_def, Rat.floor_def']

theorem jsRound_zero : jsRound 0 = 0 := by
  rw [jsRound_eq]
  rw [show ((0 : ℚ) + 1/2) = 1/2 by norm_num]
  exact Int.floor_eq_iff.mpr ⟨by norm_num, by norm_num⟩

theorem round6_zero : round6 0 = 0 := by
  rw [round6, show ((0 : ℚ) * 1000000) = 0 by ring, jsRound_zero]
  norm_num

theorem round6_eq (q : ℚ) (z : ℤ) (h1 : (z : ℚ) ≤ q * 1000000 + 1/2)
    (h2 : q * 1000000 + 1/2 < z + 1) : round6 q = (z : ℚ) / 1000000 := by
  rw [round6, jsRound_eq, Int.floor_eq_iff.mpr ⟨h1, h2⟩]

/-- C6: the spec says the balancer probes every upstream every 30 seconds,
marks an upstream healthy exactly for probe statuses 200–399, and runs the
first probe immediately at startup.  The status rule and the immediate first
probe hold, but the scheduled interval is `300000` ms (5 minutes) — the
source's own comment on that line (`// 30秒检查一次`) and the config
manager's `healthCheck.interval` default of 30000 both say 30 seconds, so
the extra zero is a slip in the code. -/
theorem C6_healthCheck_interval_codeBug :
    healthCheckIntervalMs = 300000 ∧ healthCheckIntervalMs ≠ 30000 ∧
    isHealthyStatus 199 = false ∧ isHealthyStatus 200 = true ∧
    isHealthyStatus 399 = true ∧ isHealthyStatus 400 = false ∧
    healthCheckPath none = "/health" ∧ healthCheckTimeoutMs none = 5000 := by
  refine ⟨rfl, by decide, by decide, by decide, by decide, by decide, rfl, rfl⟩

/-- C7 counterexample: the claim equates the returned `totalCost` with
`round6` applied to the sum of the four *returned (rounded)* component
costs and calls that equivalent to rounding the unrounded sum once.  With
price 0.0004 USD/1K for input and output and one token of each, both
rounded components are 0, so rounding their sum gives 0 — but the code
returns `round6` of the unrounded sum `0.0000008`, namely `0.000001`.  The
two formulations differ, and the code implements the unrounded-sum one. -/
theorem C7_counterexample_rounding :
    ((calculateCost [("test-model", ⟨1/2500, 1/2500, 0, 0⟩)]
        "test-model" ⟨1, 1, 0, 0⟩).totalCost = 1 / 1000000) ∧
    round6 ((calculateCost [("test-model", ⟨1/2500, 1/2500, 0, 0⟩)]
          "test-model" ⟨1, 1, 0, 0⟩).inputCost +
        (calculateCost [("test-model", ⟨1/2500, 1/2500, 0, 0⟩)]
          "test-model" ⟨1, 1, 0, 0⟩).outputCost +
        (calculateCost [("test-model", ⟨1/2500, 1/2500, 0, 0⟩)]
          "test-model" ⟨1, 1, 0, 0⟩).cacheCreationCost +
        (calculateCost [("test-model", ⟨1/2500, 1/2500, 0, 0⟩)]
          "test-model" ⟨1, 1, 0, 0⟩).cacheReadCost) = 0 := by
  have hfind : findMatchingLimits [("test-model", ⟨1/2500, 1/2500, 0, 0⟩)]
      "test-model" = some ⟨1/2500, 1/2500, 0, 0⟩ := rfl
  have hcomp : round6 ((1 : ℚ) / 1000 * (1/2500)) = 0 := by
    have h := round6_eq ((1 : ℚ) / 1000 * (1/2500)) 0 (by norm_num) (by norm_num)
    simpa using h
  have hz : round6 ((0 : ℚ) / 1000 * 0) = 0 := by
    rw [show ((0 : ℚ) / 1000 * 0) = 0 by ring, round6_zero]
  have htot : round6 ((1 : ℚ) / 1000 * (1/2500) + 1 / 1000 * (1/2500) +
      0 / 1000 * 0 + 0 / 1000 * 0) = 1 / 1000000 := by
    have h := round6_eq ((1 : ℚ) / 1000 * (1/2500) + 1 / 1000 * (1/2500) +
      0 / 1000 * 0 + 0 / 1000 * 0) 1 (by norm_num) (by norm_num)
    simpa using h
  constructor
  · simp only [calculateCost, hfind]
    exact htot
  · simp only [calculateCost, hfind]
    rw [hcomp, hz]
    rw [show ((0 : ℚ) + 0 + 0 + 0) = 0 by norm_num, round6_zero]

/-- C7 (amended): each per-category cost is `round6(tokens/1000 × unit
price)`, and the returned `totalCost` is `round6` of the *unrounded* sum of
the four per-category costs (the spec's second formulation; not, in
general, `round6` of the sum of the rounded components).  With no matching
pricing entry everything is 0. -/
theorem C7_calculateCost_amended :
    ∀ (modelPricing : List (String × ModelPricing)) (model : String) (u : TokenUsage),
      (∀ p, findMatchingLimits modelPricing model = some p →
        calculateCost modelPricing model u =
          ⟨round6 (u.inputTokens / 1000 * p.input),
           round6 (u.outputTokens / 1000 * p.output),
           round6 (u.cacheCreationTokens / 1000 * p.cacheCreation),
           round6 (u.cacheReadTokens / 1000 * p.cacheRead),
           round6 (u.inputTokens / 1000 * p.input +
                   u.outputTokens / 1000 * p.output +
                   u.cacheCreationTokens / 1000 * p.cacheCreation +
                   u.cacheReadTokens / 1000 * p.cacheRead)⟩) ∧
      (findMatchingLimits modelPricing model = none →
        calculateCost modelPricing model u = ⟨0, 0, 0, 0, 0⟩) := by
  intro modelPricing model u
  constructor
  · intro p h
    simp [calculateCost, h]
  · intro h
    simp [calculateCost, h]

/-- C7 witness: the amended theorem applied at a concrete pricing table. -/
theorem C7_witness :
    calculateCost [("m", ⟨1, 2, 3, 4⟩)] "m" ⟨0, 0, 0, 0⟩ =
      ⟨0, 0, 0, 0, 0⟩ := by
  have h := (C7_calculateCost_amended [("m", ⟨1, 2, 3, 4⟩)] "m"
    ⟨0, 0, 0, 0⟩).1 ⟨1, 2, 3, 4⟩ rfl
  rw [h]
  have h1 : round6 ((0 : ℚ) / 1000 * 1) = 0 := by
    rw [show ((0 : ℚ) / 1000 * 1) = 0 by ring, round6_zero]
  have h2 : round6 ((0 : ℚ) / 1000 * 2) = 0 := by
    rw [show ((0 : ℚ) / 1000 * 2) = 0 by ring, round6_zero]
  have h3 : round6 ((0 : ℚ) / 1000 * 3) = 0 := by
    rw [show ((0 : ℚ) / 1000 * 3) = 0 by ring, round6_zero]
  have h4 : round6 ((0 : ℚ) / 1000 * 4) = 0 := by
    rw [show ((0 : ℚ) / 1000 * 4) = 0 by ring, round6_zero]
  have h5 : round6 ((0 : ℚ) / 1000 * 1 + 0 / 1000 * 2 + 0 / 1000 * 3 +
      0 / 1000 * 4) = 0 := by
    rw [show ((0 : ℚ) / 1000 * 1 + 0 / 1000 * 2 + 0 / 1000 * 3 +
      0 / 1000 * 4) = 0 by ring, round6_zero]
  rw [h1, h2, h3, h4, h5]

theorem parseAllLines_eq_some :
    ∀ (l : List String), (∀ a ∈ l, (Json.parse a).isSome) →
      ∃ bs, parseAllLines l = some bs := by
  intro l
  induction l with
  | nil => intro _; exact ⟨[], rfl⟩
  | cons a t ih =>
    intro h
    obtain ⟨b, hb⟩ := Option.isSome_iff_exists.mp (h a (List.mem_cons_self a t))
    obtain ⟨bs, hbs⟩ := ih (fun x hx => h x (List.mem_cons_of_mem a hx))
    exact ⟨b :: bs, by simp [parseAllLines, hb, hbs]⟩

theorem parseAllLines_eq_none :
    ∀ (l : List String), (∃ a ∈ l, Json.parse a = none) →
      parseAllLines l = none := by
  intro l
  induction l with
  | nil => rintro ⟨a, ha, _⟩; cases ha
  | cons a t ih =>
    rintro ⟨x, hx, hfx⟩
    rcases List.mem_cons.mp hx with rfl | hxt
    · simp [parseAllLines, hfx]
    · cases hfa : Json.parse a with
      | none => simp [parseAllLines, hfa]
      | some b => simp [parseAllLines, hfa, ih ⟨x, hxt, hfx⟩]

theorem aggregate_fold_totalRequests :
    ∀ (records : List Json) (a : UsageAggregation),
      (records.foldl aggregateRecord a).totalRequests =
        a.totalRequests + records.length := by
  intro records
  induction records with
  | nil => intro a; simp
  | cons r t ih =>
    intro a
    simp only [List.foldl_cons, ih, aggregateRecord, List.length_cons]
    omega

theorem aggregate_fold_totalCost :
    ∀ (records : List Json) (a : UsageAggregation),
      (records.foldl aggregateRecord a).totalCost =
        a.totalCost + (records.map (fun r => r.getNumOr0 "totalCost")).sum := by
  intro records
  induction records with
  | nil => intro a; simp
  | cons r t ih =>
    intro a
    simp only [List.foldl_cons, ih, aggregateRecord, List.map_cons, List.sum_cons]
    ring

/-- C5 counterexample: a well-formed record followed by a malformed line —
the claim says the malformed line is skipped and never prevents
aggregation of the others, but `getDailyUsage` throws (only `ENOENT` is
converted into an empty aggregation; the `SyntaxError` from `JSON.parse`
propagates). -/
theorem C5_counterexample_malformed_line :
    getDailyUsage
        (some "\x7b\"totalTokens\":3,\"totalCost\":1.5\x7d\nnot json") =
      .error () := by
  rfl

/-- C5 (amended): blank (whitespace-only) lines are indeed skipped, and
when every non-blank line of the day file parses, the counters and costs
are summed over all of them; but a malformed (unparseable) line is *not*
skipped — it makes the whole aggregation fail with an error.  A missing
file still yields the empty aggregation. -/
theorem C5_dailyUsage_amended :
    (∀ c : String, ∀ l ∈ dayFileLines c, jsTrim l ≠ "") ∧
    (∀ c : String, (∀ l ∈ dayFileLines c, (Json.parse l).isSome) →
      ∃ records, parseAllLines (dayFileLines c) = some records ∧
        getDailyUsage (some c) = .ok (aggregateUsageRecords records) ∧
        (aggregateUsageRecords records).totalRequests = records.length ∧
        (aggregateUsageRecords records).totalCost =
          (records.map (fun r => r.getNumOr0 "totalCost")).sum) ∧
    (∀ c : String, (∃ l ∈ dayFileLines c, Json.parse l = none) →
      getDailyUsage (some c) = .error ()) ∧
    getDailyUsage none = .ok emptyUsageAggregation := by
  refine ⟨?_, ?_, ?_, rfl⟩
  · intro c l hl
    have := (List.mem_filter.mp hl).2
    simpa using this
  · intro c h
    obtain ⟨records, hrec⟩ := parseAllLines_eq_some (dayFileLines c) h
    refine ⟨records, hrec, ?_, ?_, ?_⟩
    · simp [getDailyUsage, hrec]
    · simpa [aggregateUsageRecords, emptyUsageAggregation] using
        aggregate_fold_totalRequests records emptyUsageAggregation
    · simpa [aggregateUsageRecords, emptyUsageAggregation] using
        aggregate_fold_totalCost records emptyUsageAggregation
  · intro c h
    simp [getDailyUsage, parseAllLines_eq_none (dayFileLines c) h]

/-- C5 witness: the amended theorem applied to a concrete day file with two
records, an empty line and a whitespace-only line in between. -/
theorem C5_witness :
    getDailyUsage (some ("\x7b\"model\":\"claude-3\"\x7d\n" ++
        "\n \n\x7b\"model\":\"claude-4\"\x7d")) =
      .ok (aggregateUsageRecords
        [.obj [("model", .str "claude-3")],
         .obj [("model", .str "claude-4")]]) ∧
    (aggregateUsageRecords
        [.obj [("model", .str "claude-3")],
         .obj [("model", .str "claude-4")]]).totalRequests = 2 := by
  obtain ⟨records, h1, h2, h3, _⟩ :=
    C5_dailyUsage_amended.2.1
      ("\x7b\"model\":\"claude-3\"\x7d\n" ++ "\n \n\x7b\"model\":\"claude-4\"\x7d")
      (by decide)
  have h4 : parseAllLines (dayFileLines ("\x7b\"model\":\"claude-3\"\x7d\n" ++
      "\n \n\x7b\"model\":\"claude-4\"\x7d")) =
      some [.obj [("model", .str "claude-3")],
            .obj [("model", .str "claude-4")]] := by
    rfl
  rw [h1] at h4
  obtain rfl := Option.some_inj.mp h4
  exact ⟨h2, h3⟩

theorem calculateCost_zero_usage (modelPricing : List (String × ModelPricing))
    (model : String) : (calculateCost modelPricing model ⟨0, 0, 0, 0⟩).totalCost = 0 := by
  unfold calculateCost
  cases h : findMatchingLimits modelPricing model with
  | none => rfl
  | some p =>
    have : round6 ((0 : ℚ) / 1000 * p.input + (0 : ℚ) / 1000 * p.output +
        (0 : ℚ) / 1000 * p.cacheCreation + (0 : ℚ) / 1000 * p.cacheRead) = 0 := by
      rw [show ((0 : ℚ) / 1000 * p.input + (0 : ℚ) / 1000 * p.output +
        (0 : ℚ) / 1000 * p.cacheCreation + (0 : ℚ) / 1000 * p.cacheRead) = 0
        by ring, round6_zero]
    simpa using this

/-- C1 counterexample: a tenant with `maxUSD = 10` and today's spend
already at 10 (spend alone meets the cap), authenticated, with the model
extracted from a perfectly ordinary request body — yet the limit guard is
*not* invoked and the request proceeds to upstream selection, because
`handleRequest` only calls `checkLimitsExceeded` when
`Helpers.extractTokenUsage(requestBody)` finds token usage in the request
body, which an ordinary Messages request never carries. -/
theorem C1_counterexample_guard_skipped :
    limitGuardPhase (some 10) 10 [] (some "claude-3-5-haiku-20241022")
        "\x7b\"model\":\"claude-3-5-haiku-20241022\"\x7d" =
      ⟨false, none⟩ ∧
    extractTokenUsage "\x7b\"model\":\"claude-3-5-haiku-20241022\"\x7d" = none := by
  constructor
  · rfl
  · rfl

/-- C1 (amended): the limit guard runs only when both a model *and* a token
usage were extracted from the request body; when it runs, the client gets
429 `limit_exceeded` exactly when today's spend plus the projected cost
*strictly* exceeds the cap (so spend exactly equal to the cap, with zero
projected tokens, is not rejected), and a cap that is absent — or 0, which
is falsy — means no limit. -/
theorem C1_limitGuard_amended :
    (∀ maxUSD today modelPricing model body,
      model = none ∨ extractTokenUsage body = none →
      limitGuardPhase maxUSD today modelPricing model body = ⟨false, none⟩) ∧
    (∀ maxUSD today modelPricing m body u,
      extractTokenUsage body = some u →
      limitGuardPhase maxUSD today modelPricing (some m) body =
        ⟨true, if checkLimitsExceeded maxUSD today modelPricing m u then
                 some ("limit_exceeded", 429) else none⟩) ∧
    (∀ cap today modelPricing m u, cap ≠ 0 →
      (checkLimitsExceeded (some cap) today modelPricing m u = true ↔
        today + (calculateCost modelPricing m u).totalCost > cap)) ∧
    (∀ today modelPricing m u,
      checkLimitsExceeded none today modelPricing m u = false) ∧
    (∀ today modelPricing m u,
      checkLimitsExceeded (some 0) today modelPricing m u = false) ∧
    (∀ cap modelPricing m,
      checkLimitsExceeded (some cap) cap modelPricing m ⟨0, 0, 0, 0⟩ = false) := by
  refine ⟨?_, ?_, ?_, ?_, ?_, ?_⟩
  · rintro maxUSD today mp model body (rfl | hname)
    · rfl
    · cases model with
      | none => rfl
      | some m => simp [limitGuardPhase, hname]
  · intro maxUSD today mp m body u h
    simp [limitGuardPhase, h]
    split <;> rfl
  · intro cap today mp m u hcap
    simp [checkLimitsExceeded, hcap]
  · intro today mp m u; rfl
  · intro today mp m u; simp [checkLimitsExceeded]
  · intro cap mp m
    unfold checkLimitsExceeded
    by_cases hcap : cap = 0
    · simp [hcap]
    · simp [hcap, calculateCost_zero_usage]

/-- C1 witness: the amended theorem applied at concrete inputs — a request
body that *does* carry a usage object, a cap of 10 and spend of 20, which
is rejected with 429 `limit_exceeded`. -/
theorem C1_witness :
    limitGuardPhase (some 10) 20 [] (some "claude-3-5-haiku-20241022")
        "\x7b\"usage\":\x7b\"input_tokens\":1\x7d\x7d" =
      ⟨true, some ("limit_exceeded", 429)⟩ := by
  have h := C1_limitGuard_amended.2.1 (some 10) 20 []
    "claude-3-5-haiku-20241022" "\x7b\"usage\":\x7b\"input_tokens\":1\x7d\x7d"
    ⟨1, 0, 0, 0⟩ (by rfl)
  rw [h]
  have h0 : (calculateCost [] "claude-3-5-haiku-20241022" ⟨1, 0, 0, 0⟩).totalCost = 0 := rfl
  have hex : checkLimitsExceeded (some 10) 20 [] "claude-3-5-haiku-20241022"
      ⟨1, 0, 0, 0⟩ = true := by
    show (if (10 : ℚ) = 0 then false
          else decide ((20 : ℚ) + (calculateCost [] "claude-3-5-haiku-20241022"
            ⟨1, 0, 0, 0⟩).totalCost > 10)) = true
    rw [if_neg (by norm_num), h0]
    simp only [decide_eq_true_eq]
    norm_num
  rw [hex]
  rfl

theorem countWriteHead_write_map (chunks : List String) :
    countWriteHead (chunks.map ClientAction.write) = 0 := by
  rw [countWriteHead, List.countP_map]
  exact List.countP_eq_zero.mpr (fun a _ => by simp)

/-- C3: for every upstream outcome the trace `proxyRequest` performs on the
client contains exactly one `writeHead`; an upstream error before any byte
was written produces exactly a 502 `application/json` response whose body's
`error.type` is `upstream_error` and whose `error.requestId` is the
request's id; an upstream error after the response started adds nothing
after the already-written chunks — no error body, no second head. -/
theorem C3_proxyResponse_confirmed :
    ∀ (requestId timestamp : String) (o : UpstreamOutcome),
      countWriteHead (proxyRequestActions requestId timestamp o) = 1 ∧
      (∀ message, o = .errorBeforeResponse message →
        proxyRequestActions requestId timestamp o =
          [.writeHead 502 [("Content-Type", "application/json")],
           .endResponse (some (createErrorResponse "upstream_error"
             ("上游服务器错误: " ++ message) (some requestId) timestamp))] ∧
        ((createErrorResponse "upstream_error" ("上游服务器错误: " ++ message)
            (some requestId) timestamp).getField "error").bind
          (fun e => e.getField "type") = some (.str "upstream_error") ∧
        ((createErrorResponse "upstream_error" ("上游服务器错误: " ++ message)
            (some requestId) timestamp).getField "error").bind
          (fun e => e.getField "requestId") = some (.str requestId)) ∧
      (∀ status headers chunks message,
        o = .errorAfterChunks status headers chunks message →
        proxyRequestActions requestId timestamp o =
          .writeHead status headers :: chunks.map .write ∧
        (∀ b, ClientAction.endResponse b ∉
          proxyRequestActions requestId timestamp o)) := by
  intro requestId timestamp o
  refine ⟨?_, ?_, ?_⟩
  · cases o with
    | response status headers chunks =>
      show countWriteHead
        (.writeHead status headers :: (chunks.map .write ++ [.endResponse none])) = 1
      rw [countWriteHead, List.countP_cons, List.countP_append]
      have h1 := countWriteHead_write_map chunks
      rw [countWriteHead] at h1
      rw [h1]
      rfl
    | errorBeforeResponse message => rfl
    | errorAfterChunks status headers chunks message =>
      show countWriteHead (.writeHead status headers :: chunks.map .write) = 1
      rw [countWriteHead, List.countP_cons]
      have h1 := countWriteHead_write_map chunks
      rw [countWriteHead] at h1
      rw [h1]
      rfl
  · intro message h
    subst h
    exact ⟨rfl, rfl, rfl⟩
  · intro status headers chunks message h
    subst h
    refine ⟨rfl, ?_⟩
    intro b hb
    rcases List.mem_cons.mp hb with h1 | h2
    · exact absurd h1 (by simp)
    · obtain ⟨c, _, hc⟩ := List.mem_map.mp h2
      exact absurd hc (by simp)

/-- C3 witness: the theorem applied at a concrete early-error outcome. -/
theorem C3_witness :
    countWriteHead (proxyRequestActions "deadbeef" "2025-01-01T00:00:00.000Z"
        (.errorBeforeResponse "ECONNREFUSED")) = 1 ∧
    proxyRequestActions "deadbeef" "2025-01-01T00:00:00.000Z"
        (.errorBeforeResponse "ECONNREFUSED") =
      [.writeHead 502 [("Content-Type", "application/json")],
       .endResponse (some (createErrorResponse "upstream_error"
         ("上游服务器错误: " ++ "ECONNREFUSED") (some "deadbeef")
         "2025-01-01T00:00:00.000Z"))] :=
  ⟨(C3_proxyResponse_confirmed "deadbeef" "2025-01-01T00:00:00.000Z"
      (.errorBeforeResponse "ECONNREFUSED")).1,
   ((C3_proxyResponse_confirmed "deadbeef" "2025-01-01T00:00:00.000Z"
      (.errorBeforeResponse "ECONNREFUSED")).2.1 "ECONNREFUSED" rfl).1⟩

theorem collected_write_map (chunks : List String) :
    (chunks.map ClientAction.write).filterMap
      (fun a => match a with | ClientAction.write c => some c | _ => none) =
      chunks := by
  induction chunks with
  | nil => rfl
  | cons c t ih => simp only [List.map_cons, List.filterMap_cons, ih]

theorem collectedResponseData_response (requestId timestamp : String)
    (status : ℕ) (headers : List (String × String)) (chunks : List String) :
    collectedResponseData
        (proxyRequestActions requestId timestamp (.response status headers chunks)) =
      String.join chunks := by
  show String.join (((ClientAction.writeHead status headers ::
      (chunks.map .write ++ [.endResponse none])).filterMap _)) = String.join chunks
  rw [List.filterMap_cons, List.filterMap_append]
  simp only [collected_write_map]
  simp

/-- C10: on the OpenAI non-streaming path the interposed `writeHead` emits
nothing, and whenever the buffered upstream body converts successfully the
layer answers 200 with `Content-Type: application/json` no matter what
status the upstream sent; concretely, an upstream error body that is valid
JSON converts to a `chat.completion` object with an empty `choices` list
(no `content` array in the document), which the client receives as a 200. -/
theorem C10_openaiNonStreaming_confirmed :
    (∀ (chatId : String) (created : ℤ) (requestId timestamp : String)
        (status : ℕ) (headers : List (String × String)) (chunks : List String)
        (openaiResponse : Json),
      convertNonStreamingResponse chatId created (String.join chunks) =
        .ok openaiResponse →
      openaiNonStreamingReply chatId created requestId
          (proxyRequestActions requestId timestamp (.response status headers chunks)) =
        [.writeHead 200 [("Content-Type", "application/json")],
         .endResponse (some openaiResponse)]) ∧
    convertNonStreamingResponse "chatcmpl-test" 1700000000
        "\x7b\"type\":\"error\",\"error\":\x7b\"type\":\"overloaded_error\",\"message\":\"Overloaded\"\x7d\x7d" =
      .ok (.obj [("id", .str "chatcmpl-test"), ("object", .str "chat.completion"),
                 ("created", .num ((1700000000 : ℤ) : ℚ)),
                 ("model", .str "gpt-4"), ("choices", .arr [])]) := by
  constructor
  · intro chatId created requestId timestamp status headers chunks openaiResponse h
    unfold openaiNonStreamingReply
    rw [collectedResponseData_response, h]
  · rfl

/-- C10 witness: the theorem applied to an upstream 529 whose body is the
overloaded-error JSON — the client sees 200 and an empty `choices`. -/
theorem C10_witness :
    openaiNonStreamingReply "chatcmpl-test" 1700000000 "deadbeef"
        (proxyRequestActions "deadbeef" "ts" (.response 529 []
          ["\x7b\"type\":\"error\",\"error\":\x7b\"type\":\"overloaded_error\",\"message\":\"Overloaded\"\x7d\x7d"])) =
      [.writeHead 200 [("Content-Type", "application/json")],
       .endResponse (some (.obj [("id", .str "chatcmpl-test"),
          ("object", .str "chat.completion"),
          ("created", .num ((1700000000 : ℤ) : ℚ)),
          ("model", .str "gpt-4"), ("choices", .arr [])]))] :=
  C10_openaiNonStreaming_confirmed.1 "chatcmpl-test" 1700000000 "deadbeef" "ts"
    529 []
    ["\x7b\"type\":\"error\",\"error\":\x7b\"type\":\"overloaded_error\",\"message\":\"Overloaded\"\x7d\x7d"]
    _ (by rfl)

/-- C8: the upstream list the balancer selects from is the enabled-filtered
configuration; with health checking enabled the candidates are the
upstreams not marked unhealthy (an absent health entry counts as healthy),
falling back to all enabled upstreams when none are healthy and
`failoverEnabled`, and raising the `no_upstream` error when none are
healthy and failover is off. -/
theorem C8_selectUpstream_confirmed :
    ∀ (configured : List Upstream) (healthStatus : String → Option Bool)
      (hc fo : Bool),
      (∀ cs, selectCandidates hc fo (updateUpstreams configured) healthStatus = .ok cs →
        ∀ u ∈ cs, u ∈ updateUpstreams configured ∧ u.enabled = true) ∧
      (getHealthyUpstreams (updateUpstreams configured) healthStatus ≠ [] →
        selectCandidates true fo (updateUpstreams configured) healthStatus =
          .ok (getHealthyUpstreams (updateUpstreams configured) healthStatus)) ∧
      (getHealthyUpstreams (updateUpstreams configured) healthStatus = [] →
        selectCandidates true true (updateUpstreams configured) healthStatus =
          .ok (updateUpstreams configured)) ∧
      (getHealthyUpstreams (updateUpstreams configured) healthStatus = [] →
        selectCandidates true false (updateUpstreams configured) healthStatus =
          .error .noUpstream) ∧
      (∀ u ∈ updateUpstreams configured, healthStatus u.id = none →
        u ∈ getHealthyUpstreams (updateUpstreams configured) healthStatus) := by
  intro configured healthStatus hc fo
  refine ⟨?_, ?_, ?_, ?_, ?_⟩
  · intro cs h u hu
    have hmem : u ∈ updateUpstreams configured := by
      cases hc with
      | false =>
        have heq : updateUpstreams configured = cs := by
          simpa [selectCandidates] using h
        rw [← heq] at hu
        exact hu
      | true =>
        cases he : (getHealthyUpstreams (updateUpstreams configured)
            healthStatus).isEmpty with
        | true =>
          cases fo with
          | true =>
            have heq : updateUpstreams configured = cs := by
              simpa [selectCandidates, he] using h
            rw [← heq] at hu
            exact hu
          | false =>
            have : False := by simp [selectCandidates, he] at h
            exact this.elim
        | false =>
          have heq : getHealthyUpstreams (updateUpstreams configured)
              healthStatus = cs := by
            simpa [selectCandidates, he] using h
          rw [← heq] at hu
          exact List.mem_of_mem_filter hu
    refine ⟨hmem, ?_⟩
    have := (List.mem_filter.mp hmem).2
    simpa using this
  · intro hne
    have he : (getHealthyUpstreams (updateUpstreams configured)
        healthStatus).isEmpty = false := by
      cases hlist : getHealthyUpstreams (updateUpstreams configured) healthStatus with
      | nil => exact absurd hlist hne
      | cons a t => rfl
    simp [selectCandidates, he]
  · intro he
    simp [selectCandidates, he]
  · intro he
    simp [selectCandidates, he]
  · intro u hu hnone
    refine List.mem_filter.mpr ⟨hu, ?_⟩
    simp [hnone]

/-- C8 witness: the theorem applied at a concrete configuration — one
enabled and one disabled upstream, no health information yet. -/
theorem C8_witness :
    selectCandidates true false
        (updateUpstreams [⟨"a", none, true⟩, ⟨"b", none, false⟩])
        (fun _ => none) = .ok [⟨"a", none, true⟩] := by
  have h := (C8_selectUpstream_confirmed [⟨"a", none, true⟩, ⟨"b", none, false⟩]
    (fun _ => none) true false).2.1 (by decide)
  rw [h]
  rfl

/-! ### Smooth-WRR lemmas -/

theorem effWeight_pos (u : Upstream) : 1 ≤ effWeight u := by
  unfold effWeight
  cases u.weight with
  | none => simp
  | some w =>
    by_cases hw : w = 0
    · simp [hw]
    · simp only [hw, if_false]
      omega

theorem totalWeight_pos (us : List Upstream) (hne : us ≠ []) :
    1 ≤ totalWeight us := by
  cases us with
  | nil => exact absurd rfl hne
  | cons u rest =>
    have := effWeight_pos u
    simp only [totalWeight, List.map_cons, List.sum_cons]
    omega

theorem effWeight_le_totalWeight (us : List Upstream) (u : Upstream)
    (hu : u ∈ us) : effWeight u ≤ totalWeight us := by
  exact List.single_le_sum (fun x _ => Nat.zero_le x) _
    (List.mem_map_of_mem effWeight hu)

theorem wrrScanStep_counters (acc : WrrScanAcc) (u : Upstream) :
    (wrrScanStep acc u).counters =
      updateCounter acc.counters u.id (acc.counters u.id + effWeight u) := by
  unfold wrrScanStep
  by_cases h : acc.counters u.id + (effWeight u : ℤ) > acc.maxCurrentWeight
  · simp [h]
  · simp [h]

theorem wrrScanStep_sel_pos (acc : WrrScanAcc) (u : Upstream)
    (h : acc.counters u.id + (effWeight u : ℤ) > acc.maxCurrentWeight) :
    (wrrScanStep acc u).selected = some u ∧
    (wrrScanStep acc u).maxCurrentWeight = acc.counters u.id + effWeight u := by
  unfold wrrScanStep
  simp [h]

theorem wrrScanStep_sel_neg (acc : WrrScanAcc) (u : Upstream)
    (h : ¬(acc.counters u.id + (effWeight u : ℤ) > acc.maxCurrentWeight)) :
    (wrrScanStep acc u).selected = acc.selected ∧
    (wrrScanStep acc u).maxCurrentWeight = acc.maxCurrentWeight := by
  unfold wrrScanStep
  simp [h]

theorem firstMax_cons (f : Upstream → ℤ) (u : Upstream) (rest : List Upstream)
    (s0 : Option Upstream) (m0 : ℤ) :
    firstMax f (u :: rest) s0 m0 =
      if f u > m0 then firstMax f rest (some u) (f u)
      else firstMax f rest s0 m0 := by
  unfold firstMax
  rw [List.foldl_cons]
  by_cases h : f u > m0
  · rw [if_pos h, if_pos h]
  · rw [if_neg h, if_neg h]

theorem updateCounter_same (cnt : WeightCounters) (i : String) (v : ℤ) :
    updateCounter cnt i v i = v := by
  simp [updateCounter]

theorem updateCounter_other (cnt : WeightCounters) (i x : String) (v : ℤ)
    (h : x ≠ i) : updateCounter cnt i v x = cnt x := by
  simp [updateCounter, h]

theorem wrrScan_fold_counters :
    ∀ (us : List Upstream) (acc : WrrScanAcc),
      (us.map Upstream.id).Nodup →
      (∀ u ∈ us, (us.foldl wrrScanStep acc).counters u.id =
        acc.counters u.id + effWeight u) ∧
      (∀ x, x ∉ us.map Upstream.id →
        (us.foldl wrrScanStep acc).counters x = acc.counters x) := by
  intro us
  induction us with
  | nil => intro acc _; exact ⟨fun u hu => absurd hu (List.not_mem_nil u), fun _ _ => rfl⟩
  | cons u rest ih =>
    intro acc hnd
    have hnd' : (rest.map Upstream.id).Nodup := (List.nodup_cons.mp hnd).2
    have hu_not : u.id ∉ rest.map Upstream.id := (List.nodup_cons.mp hnd).1
    obtain ⟨ihm, iho⟩ := ih (wrrScanStep acc u) hnd'
    constructor
    · intro v hv
      rcases List.mem_cons.mp hv with rfl | hvr
      · rw [List.foldl_cons, iho v.id hu_not, wrrScanStep_counters,
          updateCounter_same]
      · have hvne : v.id ≠ u.id := fun h =>
          hu_not (h ▸ List.mem_map_of_mem Upstream.id hvr)
        rw [List.foldl_cons, ihm v hvr, wrrScanStep_counters,
          updateCounter_other _ _ _ _ hvne]
    · intro x hx
      have hx1 : x ≠ u.id := fun h => hx (h ▸ List.mem_cons_self _ _)
      have hx2 : x ∉ rest.map Upstream.id := fun h =>
        hx (List.mem_cons_of_mem _ h)
      rw [List.foldl_cons, iho x hx2, wrrScanStep_counters,
        updateCounter_other _ _ _ _ hx1]

theorem wrrScan_fold_sel :
    ∀ (us : List Upstream) (acc : WrrScanAcc) (cnt : WeightCounters),
      (us.map Upstream.id).Nodup →
      (∀ u ∈ us, acc.counters u.id = cnt u.id) →
      ((us.foldl wrrScanStep acc).selected,
       (us.foldl wrrScanStep acc).maxCurrentWeight) =
        firstMax (fun u => cnt u.id + effWeight u) us
          acc.selected acc.maxCurrentWeight := by
  intro us
  induction us with
  | nil => intro acc cnt _ _; rfl
  | cons u rest ih =>
    intro acc cnt hnd hagree
    have hnd' : (rest.map Upstream.id).Nodup := (List.nodup_cons.mp hnd).2
    have hu_not : u.id ∉ rest.map Upstream.id := (List.nodup_cons.mp hnd).1
    have hcw : acc.counters u.id + (effWeight u : ℤ) =
        cnt u.id + effWeight u := by
      rw [hagree u (List.mem_cons_self _ _)]
    have hagree' : ∀ v ∈ rest, (wrrScanStep acc u).counters v.id = cnt v.id := by
      intro v hv
      have hvne : v.id ≠ u.id := fun h =>
        hu_not (h ▸ List.mem_map_of_mem Upstream.id hv)
      rw [wrrScanStep_counters, updateCounter_other _ _ _ _ hvne]
      exact hagree v (List.mem_cons_of_mem _ hv)
    rw [List.foldl_cons, firstMax_cons]
    have hrec := ih (wrrScanStep acc u) cnt hnd' hagree'
    by_cases hgt : cnt u.id + (effWeight u : ℤ) > acc.maxCurrentWeight
    · rw [if_pos hgt]
      have hsel := wrrScanStep_sel_pos acc u (by rw [hcw]; exact hgt)
      rw [hrec, hsel.1, hsel.2, hcw]
    · rw [if_neg hgt]
      have hsel := wrrScanStep_sel_neg acc u (by rw [hcw]; exact hgt)
      rw [hrec, hsel.1, hsel.2]

theorem firstMax_spec (f : Upstream → ℤ) :
    ∀ (us : List Upstream) (s0 : Option Upstream) (m0 : ℤ),
      (∀ u ∈ us, f u ≤ (firstMax f us s0 m0).2) ∧
      m0 ≤ (firstMax f us s0 m0).2 ∧
      (((firstMax f us s0 m0).1 = s0 ∧ (firstMax f us s0 m0).2 = m0) ∨
        (∃ s ∈ us, (firstMax f us s0 m0).1 = some s ∧
          (firstMax f us s0 m0).2 = f s)) := by
  intro us
  induction us with
  | nil =>
    intro s0 m0
    exact ⟨fun u hu => absurd hu (List.not_mem_nil u), le_refl _,
      Or.inl ⟨rfl, rfl⟩⟩
  | cons u rest ih =>
    intro s0 m0
    have hunf : firstMax f (u :: rest) s0 m0 =
        firstMax f rest (if f u > m0 then (some u, f u) else (s0, m0)).1
          (if f u > m0 then (some u, f u) else (s0, m0)).2 := by
      unfold firstMax
      rw [List.foldl_cons]
    by_cases h : f u > m0
    · rw [if_pos h] at hunf
      obtain ⟨ha, hb, hc⟩ := ih (some u) (f u)
      refine ⟨?_, ?_, ?_⟩
      · intro v hv
        rcases List.mem_cons.mp hv with rfl | hvr
        · rw [hunf]; exact hb
        · rw [hunf]; exact ha v hvr
      · rw [hunf]; exact le_of_lt (lt_of_lt_of_le h hb)
      · rw [hunf]
        rcases hc with ⟨h1, h2⟩ | ⟨s, hs, h1, h2⟩
        · exact Or.inr ⟨u, List.mem_cons_self _ _, h1, h2⟩
        · exact Or.inr ⟨s, List.mem_cons_of_mem _ hs, h1, h2⟩
    · rw [if_neg h] at hunf
      obtain ⟨ha, hb, hc⟩ := ih s0 m0
      refine ⟨?_, ?_, ?_⟩
      · intro v hv
        rcases List.mem_cons.mp hv with rfl | hvr
        · rw [hunf]; exact le_trans (not_lt.mp h) hb
        · rw [hunf]; exact ha v hvr
      · rw [hunf]; exact hb
      · rw [hunf]
        rcases hc with ⟨h1, h2⟩ | ⟨s, hs, h1, h2⟩
        · exact Or.inl ⟨h1, h2⟩
        · exact Or.inr ⟨s, List.mem_cons_of_mem _ hs, h1, h2⟩

theorem firstMax_exists (f : Upstream → ℤ) (us : List Upstream)
    (h : ∃ u ∈ us, (-1 : ℤ) < f u) :
    ∃ s ∈ us, (firstMax f us none (-1)).1 = some s ∧
      (∀ u ∈ us, f u ≤ f s) := by
  obtain ⟨ha, _, hc⟩ := firstMax_spec f us none (-1)
  rcases hc with ⟨_, h2⟩ | ⟨s, hs, h1, h2⟩
  · obtain ⟨u, hu, hgt⟩ := h
    have := ha u hu
    rw [h2] at this
    omega
  · exact ⟨s, hs, h1, fun u hu => h2 ▸ ha u hu⟩

theorem wrrStep_spec (us : List Upstream) (hne : us ≠ [])
    (hnd : (us.map Upstream.id).Nodup) (st : LBState)
    (hex : ∃ u ∈ us, (-1 : ℤ) < st.counters u.id + effWeight u) :
    ∃ s st', weightedRoundRobinSelection us st = .ok (s, st') ∧ s ∈ us ∧
      (∀ u ∈ us, st.counters u.id + (effWeight u : ℤ) ≤
        st.counters s.id + effWeight s) ∧
      st'.counters s.id =
        st.counters s.id + effWeight s - totalWeight us ∧
      (∀ u ∈ us, u.id ≠ s.id →
        st'.counters u.id = st.counters u.id + effWeight u) ∧
      (∀ x, x ∉ us.map Upstream.id → st'.counters x = st.counters x) ∧
      st'.currentIndex = st.currentIndex := by
  obtain ⟨hm, ho⟩ := wrrScan_fold_counters us ⟨none, -1, st.counters⟩ hnd
  have hselp := wrrScan_fold_sel us ⟨none, -1, st.counters⟩ st.counters hnd
    (fun _ _ => rfl)
  obtain ⟨s, hs, hfst, hmax⟩ :=
    firstMax_exists (fun u => st.counters u.id + effWeight u) us hex
  have hmS : ∀ u ∈ us, (wrrScan us st.counters).counters u.id =
      st.counters u.id + effWeight u := hm
  have hoS : ∀ x, x ∉ us.map Upstream.id →
      (wrrScan us st.counters).counters x = st.counters x := ho
  have hsel1 : (wrrScan us st.counters).selected = some s := by
    have h1 := congrArg Prod.fst hselp
    simp only at h1
    rw [show (wrrScan us st.counters).selected = ((us.foldl wrrScanStep
      ⟨none, -1, st.counters⟩).selected, (us.foldl wrrScanStep
      ⟨none, -1, st.counters⟩).maxCurrentWeight).1 from rfl, hselp, hfst]
  obtain ⟨u0, rest, rfl⟩ : ∃ u0 rest, us = u0 :: rest := by
    cases us with
    | nil => exact absurd rfl hne
    | cons a b => exact ⟨a, b, rfl⟩
  have hW : ¬(totalWeight (u0 :: rest) = 0) := by
    have := totalWeight_pos (u0 :: rest) hne
    omega
  refine ⟨s, ⟨updateCounter (wrrScan (u0 :: rest) st.counters).counters s.id
      ((wrrScan (u0 :: rest) st.counters).counters s.id -
        (totalWeight (u0 :: rest) : ℤ)), st.currentIndex⟩,
    ?_, hs, hmax, ?_, ?_, ?_, rfl⟩
  · show weightedRoundRobinSelection (u0 :: rest) st = _
    simp only [weightedRoundRobinSelection, hW, if_false, hsel1]
  · show updateCounter _ s.id _ s.id = _
    rw [updateCounter_same, hmS s hs]
  · intro u hu hne'
    show updateCounter _ s.id _ u.id = _
    rw [updateCounter_other _ _ _ _ hne', hmS u hu]
  · intro x hx
    have hxs : x ≠ s.id := fun h => hx (h ▸ List.mem_map_of_mem Upstream.id hs)
    show updateCounter _ s.id _ x = _
    rw [updateCounter_other _ _ _ _ hxs, hoS x hx]

/-- Mapping functions that agree on the list give the same list. -/
theorem list_map_congr {α β : Type} (f g : α → β) :
    ∀ l : List α, (∀ a ∈ l, f a = g a) → l.map f = l.map g := by
  intro l
  induction l with
  | nil => intro _; rfl
  | cons a rest ih =>
    intro h
    simp only [List.map_cons]
    rw [h a (List.mem_cons_self a rest),
      ih (fun b hb => h b (List.mem_cons_of_mem a hb))]

/-- Summing an id-indicator over candidates with distinct ids picks out the
value exactly once. -/
theorem list_sum_ite_id {M : Type} [AddCommMonoid M] (z : M) :
    ∀ (us : List Upstream) (sid : String), (us.map Upstream.id).Nodup →
      sid ∈ us.map Upstream.id →
      (us.map (fun u => if u.id = sid then z else 0)).sum = z := by
  intro us
  induction us with
  | nil => intro sid _ hmem; simp at hmem
  | cons u rest ih =>
    intro sid hnd hmem
    simp only [List.map_cons, List.nodup_cons] at hnd
    simp only [List.map_cons, List.mem_cons] at hmem
    simp only [List.map_cons, List.sum_cons]
    by_cases h : u.id = sid
    · rw [if_pos h]
      have hz : rest.map (fun v => if v.id = sid then z else 0) =
          rest.map (fun _ => (0 : M)) := by
        apply list_map_congr
        intro v hv
        rw [if_neg]
        intro hveq
        exact hnd.1 (by
          rw [h, ← hveq]
          exact List.mem_map_of_mem Upstream.id hv)
      rw [hz]
      simp
    · rw [if_neg h, zero_add]
      rcases hmem with h1 | h1
      · exact absurd h1.symm h
      · exact ih sid hnd.2 h1

/-- Distribute a list sum over pointwise `A + B - C` in `ℤ`. -/
theorem list_sum_map_add_sub_int (A B C : Upstream → ℤ) :
    ∀ l : List Upstream,
      (l.map fun a => A a + B a - C a).sum =
        (l.map A).sum + (l.map B).sum - (l.map C).sum := by
  intro l
  induction l with
  | nil => simp
  | cons a rest ih =>
    simp only [List.map_cons, List.sum_cons, ih]
    ring

/-- Distribute a list sum over pointwise `f + g` in `ℕ`. -/
theorem list_sum_map_add_nat (f g : Upstream → ℕ) :
    ∀ l : List Upstream,
      (l.map fun a => f a + g a).sum = (l.map f).sum + (l.map g).sum := by
  intro l
  induction l with
  | nil => rfl
  | cons a rest ih =>
    simp only [List.map_cons, List.sum_cons, ih]
    ring

/-- The integer cast of the total weight is the sum of the cast effective
weights. -/
theorem totalWeight_cast (us : List Upstream) :
    (us.map (fun u => (effWeight u : ℤ))).sum = (totalWeight us : ℤ) := by
  induction us with
  | nil => simp [totalWeight]
  | cons u rest ih =>
    simp only [List.map_cons, List.sum_cons, totalWeight] at ih ⊢
    rw [ih]
    push_cast
    ring

/-- A nonempty list of integers with nonnegative sum has a nonnegative
element. -/
theorem exists_mem_nonneg_of_sum_nonneg (g : Upstream → ℤ) :
    ∀ l : List Upstream, l ≠ [] → 0 ≤ (l.map g).sum → ∃ u ∈ l, 0 ≤ g u := by
  intro l
  induction l with
  | nil => intro h; exact absurd rfl h
  | cons a rest ih =>
    intro _ hsum
    by_cases ha : 0 ≤ g a
    · exact ⟨a, List.mem_cons_self a rest, ha⟩
    · cases hr : rest with
      | nil =>
        exfalso
        rw [hr] at hsum
        simp only [List.map_cons, List.map_nil, List.sum_cons, List.sum_nil,
          add_zero] at hsum
        omega
      | cons b rest' =>
        rw [← hr]
        have hsum' : 0 ≤ (rest.map g).sum := by
          simp only [List.map_cons, List.sum_cons] at hsum
          omega
        obtain ⟨u, hu, hgu⟩ := ih (by rw [hr]; exact List.cons_ne_nil b rest') hsum'
        exact ⟨u, List.mem_cons_of_mem a hu, hgu⟩

/-- Summing the per-candidate selection counts over distinct ids counts
every selection once. -/
theorem sum_selCount (us : List Upstream)
    (hnd : (us.map Upstream.id).Nodup) :
    ∀ sels : List Upstream, (∀ v ∈ sels, v ∈ us) →
      (us.map (fun u => selCount sels u.id)).sum = sels.length := by
  intro sels
  induction sels with
  | nil =>
    intro _
    have hz : us.map (fun u => selCount [] u.id) = us.map (fun _ => 0) :=
      list_map_congr _ _ us (fun u _ => rfl)
    rw [hz]
    simp
  | cons v rest ih =>
    intro hmem
    have hstep : us.map (fun u => selCount (v :: rest) u.id) =
        us.map (fun u => selCount rest u.id + (if u.id = v.id then 1 else 0)) := by
      apply list_map_congr
      intro u _
      simp only [selCount, List.countP_cons]
      by_cases h : v.id = u.id
      · rw [if_pos (by simp [h]), if_pos h.symm]
      · rw [if_neg (by simp [h]), if_neg (fun hh => h hh.symm)]
    rw [hstep, list_sum_map_add_nat,
      ih (fun w hw => hmem w (List.mem_cons_of_mem v hw)),
      list_sum_ite_id (1 : ℕ) us v.id hnd
        (List.mem_map_of_mem Upstream.id (hmem v (List.mem_cons_self v rest)))]
    simp

/-- Pointwise `≤` of naturals gives `≤` of the list sums. -/
theorem list_sum_le_nat (f g : Upstream → ℕ) :
    ∀ l : List Upstream, (∀ a ∈ l, f a ≤ g a) →
      (l.map f).sum ≤ (l.map g).sum := by
  intro l
  induction l with
  | nil => intro _; exact le_refl _
  | cons b rest ih =>
    intro hle
    simp only [List.map_cons, List.sum_cons]
    have h1 := hle b (List.mem_cons_self b rest)
    have h2 := ih (fun x hx => hle x (List.mem_cons_of_mem b hx))
    omega

/-- Pointwise `≤` of naturals whose list sums agree is pointwise equality. -/
theorem eq_of_le_of_sum_eq (f g : Upstream → ℕ) :
    ∀ l : List Upstream, (∀ a ∈ l, f a ≤ g a) →
      (l.map f).sum = (l.map g).sum → ∀ a ∈ l, f a = g a := by
  intro l
  induction l with
  | nil => intro _ _ a ha; exact absurd ha (List.not_mem_nil a)
  | cons b rest ih =>
    intro hle hsum a ha
    have hrest : (rest.map f).sum ≤ (rest.map g).sum :=
      list_sum_le_nat f g rest (fun x hx => hle x (List.mem_cons_of_mem b hx))
    simp only [List.map_cons, List.sum_cons] at hsum
    have hb := hle b (List.mem_cons_self b rest)
    rcases List.mem_cons.mp ha with h | h
    · subst h; omega
    · exact ih (fun x hx => hle x (List.mem_cons_of_mem b hx)) (by omega) a h

/-- Two balancer states with the same counters and index are equal. -/
theorem lbstate_eq : ∀ a b : LBState, a.counters = b.counters →
    a.currentIndex = b.currentIndex → a = b
  | ⟨_, _⟩, ⟨_, _⟩, rfl, rfl => rfl

/-- The standing invariant of `n` weighted-round-robin selections from the
initial state over a fixed nonempty candidate list with distinct ids: the
counters sum to zero, each counter is strictly above `-totalWeight`,
counters of unknown ids stay zero, each counter equals
`n * effWeight - totalWeight * timesSelected`, and `n` in-list selections
were made while the plain round-robin index never moves. -/
theorem wrrRun_invariant (us : List Upstream) (hne : us ≠ [])
    (hnd : (us.map Upstream.id).Nodup) :
    ∀ n : ℕ,
      (us.map (fun u => (wrrRun us n).1.counters u.id)).sum = 0 ∧
      (∀ u ∈ us, -(totalWeight us : ℤ) < (wrrRun us n).1.counters u.id) ∧
      (∀ x, x ∉ us.map Upstream.id → (wrrRun us n).1.counters x = 0) ∧
      (∀ u ∈ us, (wrrRun us n).1.counters u.id =
        (n : ℤ) * (effWeight u : ℤ) -
          (totalWeight us : ℤ) * (selCount (wrrRun us n).2 u.id : ℤ)) ∧
      (wrrRun us n).2.length = n ∧
      (∀ v ∈ (wrrRun us n).2, v ∈ us) ∧
      (wrrRun us n).1.currentIndex = 0 := by
  have hWpos := totalWeight_pos us hne
  have hinj := List.inj_on_of_nodup_map hnd
  intro n
  induction n with
  | zero =>
    refine ⟨?_, ?_, fun _ _ => rfl, ?_, rfl, ?_, rfl⟩
    · rw [list_map_congr (fun u => (wrrRun us 0).1.counters u.id)
        (fun _ => (0 : ℤ)) us (fun u _ => rfl)]
      simp
    · intro u _
      show -(totalWeight us : ℤ) < 0
      omega
    · intro u _
      show (0 : ℤ) = (0 : ℤ) * (effWeight u : ℤ) -
        (totalWeight us : ℤ) * ((selCount [] u.id : ℕ) : ℤ)
      simp [selCount]
    · intro v hv
      exact absurd hv (List.not_mem_nil v)
  | succ n ih =>
    obtain ⟨hsum, hlow, hout, hrel, hlen, hmem, hidx⟩ := ih
    obtain ⟨u0, hu0, hge⟩ := exists_mem_nonneg_of_sum_nonneg
      (fun u => (wrrRun us n).1.counters u.id) us hne (by rw [hsum])
    have hge' : (0 : ℤ) ≤ (wrrRun us n).1.counters u0.id := hge
    have hpos0 := effWeight_pos u0
    obtain ⟨s, st', heq, hsmem, hmax, hcs, hcother, hcout, hcidx⟩ :=
      wrrStep_spec us hne hnd (wrrRun us n).1 ⟨u0, hu0, by omega⟩
    have hrun : wrrRun us (n + 1) = (st', (wrrRun us n).2 ++ [s]) := by
      show wrrRunFrom us initialLBState (n + 1) = _
      simp only [wrrRunFrom]
      rw [show wrrRunFrom us initialLBState n = wrrRun us n from rfl, heq]
    have hst : (wrrRun us (n + 1)).1 = st' := by rw [hrun]
    have hsels : (wrrRun us (n + 1)).2 = (wrrRun us n).2 ++ [s] := by rw [hrun]
    have hselapp : ∀ uid, selCount ((wrrRun us n).2 ++ [s]) uid =
        selCount (wrrRun us n).2 uid + (if s.id = uid then 1 else 0) := by
      intro uid
      simp only [selCount, List.countP_append, List.countP_cons, List.countP_nil]
      by_cases h : s.id = uid <;> simp [h]
    refine ⟨?_, ?_, ?_, ?_, ?_, ?_, ?_⟩
    · have h1 : us.map (fun u => (wrrRun us (n + 1)).1.counters u.id) =
          us.map (fun u => (wrrRun us n).1.counters u.id + (effWeight u : ℤ) -
            (if u.id = s.id then (totalWeight us : ℤ) else 0)) := by
        apply list_map_congr
        intro u hu
        rw [hst]
        by_cases h : u.id = s.id
        · rw [show u = s from hinj hu hsmem h, if_pos rfl]
          exact hcs
        · rw [hcother u hu h, if_neg h]
          ring
      rw [h1, list_sum_map_add_sub_int (fun u => (wrrRun us n).1.counters u.id)
          (fun u => (effWeight u : ℤ))
          (fun u => if u.id = s.id then (totalWeight us : ℤ) else 0) us,
        hsum, totalWeight_cast,
        list_sum_ite_id ((totalWeight us : ℤ)) us s.id hnd
          (List.mem_map_of_mem Upstream.id hsmem)]
      ring
    · intro u hu
      rw [hst]
      by_cases h : u.id = s.id
      · rw [show u = s from hinj hu hsmem h, hcs]
        have h1 := hmax u0 hu0
        have h2 := effWeight_pos s
        omega
      · rw [hcother u hu h]
        have h1 := hlow u hu
        have h2 := effWeight_pos u
        omega
    · intro x hx
      rw [hst, hcout x hx]
      exact hout x hx
    · intro u hu
      rw [hst, hsels, hselapp u.id]
      by_cases h : u.id = s.id
      · rw [show u = s from hinj hu hsmem h, hcs, hrel s hsmem, if_pos rfl]
        push_cast
        ring
      · rw [hcother u hu h, hrel u hu, if_neg (fun hh => h hh.symm)]
        push_cast
        ring
    · rw [hsels]
      simp [hlen]
    · intro v hv
      rw [hsels] at hv
      rcases List.mem_append.mp hv with h | h
      · exact hmem v h
      · rw [List.mem_singleton.mp h]
        exact hsmem
    · rw [hst, hcidx]
      exact hidx

/-- Dropping the length of the first part of an append leaves the second. -/
theorem list_drop_len_append {α : Type} :
    ∀ l₁ l₂ : List α, (l₁ ++ l₂).drop l₁.length = l₂ := by
  intro l₁ l₂
  induction l₁ with
  | nil => rfl
  | cons a t ih => exact ih

/-- Splitting a run: the selections of `m + k` steps are those of the first
`m` steps followed by those of `k` further steps from the reached state. -/
theorem wrrRunFrom_add (us : List Upstream) (st : LBState) (m : ℕ) :
    ∀ k : ℕ, wrrRunFrom us st (m + k) =
      ((wrrRunFrom us (wrrRunFrom us st m).1 k).1,
       (wrrRunFrom us st m).2 ++ (wrrRunFrom us (wrrRunFrom us st m).1 k).2) := by
  intro k
  induction k with
  | zero =>
    show wrrRunFrom us st m = _
    rw [show wrrRunFrom us (wrrRunFrom us st m).1 0 =
      ((wrrRunFrom us st m).1, ([] : List Upstream)) from rfl]
    simp
  | succ k ih =>
    show wrrRunFrom us st ((m + k) + 1) = _
    simp only [wrrRunFrom]
    rw [ih]
    cases hsel : weightedRoundRobinSelection us
        (wrrRunFrom us (wrrRunFrom us st m).1 k).1 with
    | ok q => simp [hsel, List.append_assoc]
    | error e => simp [hsel]

/-- After exactly `totalWeight` selections from the initial state the
balancer state is the initial state again, and each candidate was selected
exactly its effective weight many times. -/
theorem wrrRun_period (us : List Upstream) (hne : us ≠ [])
    (hnd : (us.map Upstream.id).Nodup) :
    (wrrRun us (totalWeight us)).1 = initialLBState ∧
    ∀ u ∈ us, selCount (wrrRun us (totalWeight us)).2 u.id = effWeight u := by
  obtain ⟨hsum, hlow, hout, hrel, hlen, hmem, hidx⟩ :=
    wrrRun_invariant us hne hnd (totalWeight us)
  have hW := totalWeight_pos us hne
  have hle : ∀ u ∈ us,
      selCount (wrrRun us (totalWeight us)).2 u.id ≤ effWeight u := by
    intro u hu
    by_contra hcon
    push_neg at hcon
    have h1 := hlow u hu
    rw [hrel u hu] at h1
    have h2 : (effWeight u : ℤ) + 1 ≤
        (selCount (wrrRun us (totalWeight us)).2 u.id : ℤ) := by
      exact_mod_cast hcon
    have h3 : (totalWeight us : ℤ) * ((effWeight u : ℤ) + 1) ≤
        (totalWeight us : ℤ) *
          (selCount (wrrRun us (totalWeight us)).2 u.id : ℤ) :=
      mul_le_mul_of_nonneg_left h2 (by positivity)
    rw [mul_add, mul_one] at h3
    linarith
  have hsumeq :
      (us.map (fun u => selCount (wrrRun us (totalWeight us)).2 u.id)).sum =
        (us.map effWeight).sum := by
    rw [sum_selCount us hnd _ hmem, hlen]
    rfl
  have hpt := eq_of_le_of_sum_eq
    (fun u => selCount (wrrRun us (totalWeight us)).2 u.id) effWeight us hle hsumeq
  refine ⟨?_, hpt⟩
  apply lbstate_eq
  · funext x
    show (wrrRun us (totalWeight us)).1.counters x = 0
    by_cases hx : x ∈ us.map Upstream.id
    · obtain ⟨u, hu, rfl⟩ := List.mem_map.mp hx
      have h4 : selCount (wrrRun us (totalWeight us)).2 u.id = effWeight u :=
        hpt u hu
      rw [hrel u hu, h4]
      ring
    · exact hout x hx
  · exact hidx

/-- The window property of the smooth weighted round robin: dropping the
first `n` selections of a `(n + totalWeight)`-step run leaves a window of
`totalWeight` consecutive selections in which each candidate occurs exactly
its effective weight many times. -/
theorem wrrRun_window (us : List Upstream) (hne : us ≠ [])
    (hnd : (us.map Upstream.id).Nodup) (n : ℕ) :
    ∀ u ∈ us, selCount ((wrrRun us (n + totalWeight us)).2.drop n) u.id =
      effWeight u := by
  intro u hu
  obtain ⟨-, -, -, hreln, hlenn, -, -⟩ := wrrRun_invariant us hne hnd n
  obtain ⟨-, -, -, hrelW, -, -, -⟩ :=
    wrrRun_invariant us hne hnd (n + totalWeight us)
  have hW := totalWeight_pos us hne
  have hper : (wrrRun us (n + totalWeight us)).1 = (wrrRun us n).1 := by
    have hp := (wrrRun_period us hne hnd).1
    have hadd := wrrRunFrom_add us initialLBState (totalWeight us) n
    have h1 : (wrrRun us (totalWeight us + n)).1 =
        (wrrRunFrom us (wrrRunFrom us initialLBState (totalWeight us)).1 n).1 := by
      show (wrrRunFrom us initialLBState (totalWeight us + n)).1 = _
      rw [hadd]
    rw [Nat.add_comm n (totalWeight us), h1,
      show (wrrRunFrom us initialLBState (totalWeight us)).1 = initialLBState
        from hp]
    rfl
  have h1 := hreln u hu
  have h2 := hrelW u hu
  rw [hper, h1] at h2
  have hcount : selCount (wrrRun us (n + totalWeight us)).2 u.id =
      selCount (wrrRun us n).2 u.id + effWeight u := by
    have hz : (totalWeight us : ℤ) *
        ((selCount (wrrRun us (n + totalWeight us)).2 u.id : ℤ) -
          (selCount (wrrRun us n).2 u.id : ℤ) - (effWeight u : ℤ)) = 0 := by
      push_cast at h2
      ring_nf at h2 ⊢
      linarith
    rcases mul_eq_zero.mp hz with h | h
    · exfalso
      omega
    · have h5 : (selCount (wrrRun us (n + totalWeight us)).2 u.id : ℤ) =
          (selCount (wrrRun us n).2 u.id : ℤ) + (effWeight u : ℤ) := by
        linarith
      exact_mod_cast h5
  have hadd := wrrRunFrom_add us initialLBState n (totalWeight us)
  have hsplit : (wrrRun us (n + totalWeight us)).2 =
      (wrrRun us n).2 ++ (wrrRunFrom us (wrrRun us n).1 (totalWeight us)).2 :=
    congrArg Prod.snd hadd
  have happ : selCount (wrrRun us (n + totalWeight us)).2 u.id =
      selCount (wrrRun us n).2 u.id +
        selCount (wrrRunFrom us (wrrRun us n).1 (totalWeight us)).2 u.id := by
    rw [hsplit]
    simp [selCount, List.countP_append]
  have hdrop : ∀ A B : List Upstream, A.length = n → (A ++ B).drop n = B := by
    intro A B h
    rw [← h]
    exact list_drop_len_append A B
  rw [hsplit, hdrop _ _ hlenn]
  omega

/-- Claim C2 counterexample: the claim quantifies over candidate lists whose
configured weights sum to a positive total and predicts each candidate is
chosen exactly its configured weight many times per window, so a candidate
of configured weight `0` should never be chosen; but `weight || 100` is
falsy at `0`, so a zero-weight candidate runs at effective weight `100`
and wins the very first selection of a window of size `W = 0 + 1 = 1`. -/
theorem C2_counterexample_zero_weight :
    selCount (wrrRun [⟨"Z", some 0, true⟩, ⟨"B", some 1, true⟩] 1).2 "Z" = 1 := by
  rfl

/-- Claim C2, amended: with weights taken as the code's effective weights
(`weight || 100`: an absent or zero configured weight counts as 100), over
a fixed nonempty candidate list with distinct ids every window of
`totalWeight` consecutive selections — dropping any `n`-selection prefix of
the run from the initial state — selects each candidate exactly its
effective weight many times (ties broken by first occurrence, as the scan
only replaces the running maximum on a strict increase); and concretely,
with candidates A (weight 3) and B (weight 1), 8 consecutive selections
from the initial state produce the smooth-WRR order A A B A A A B A. -/
theorem C2_weightedRoundRobin_amended (us : List Upstream) (hne : us ≠ [])
    (hnd : (us.map Upstream.id).Nodup) :
    (∀ n : ℕ, ∀ u ∈ us,
      selCount ((wrrRun us (n + totalWeight us)).2.drop n) u.id = effWeight u) ∧
    (wrrRun [⟨"A", some 3, true⟩, ⟨"B", some 1, true⟩] 8).2.map Upstream.id =
      ["A", "A", "B", "A", "A", "A", "B", "A"] := by
  refine ⟨fun n u hu => wrrRun_window us hne hnd n u hu, ?_⟩
  rfl

/-- C2 witness: the amended window property applied to candidates A
(weight 3) and B (weight 1) at the window starting at 0: among the first
`totalWeight = 4` selections, A is chosen exactly 3 times. -/
theorem C2_witness :
    selCount ((wrrRun [⟨"A", some 3, true⟩, ⟨"B", some 1, true⟩] 4).2.drop 0)
      "A" = 3 :=
  (C2_weightedRoundRobin_amended [⟨"A", some 3, true⟩, ⟨"B", some 1, true⟩]
    (by decide) (by decide)).1 0 ⟨"A", some 3, true⟩ (by decide)

/-- Claim C9: the smooth-WRR counter invariant. Counters start at zero,
and over a fixed candidate list (nonempty with distinct ids, so the total
weight is positive) any successful `weightedRoundRobinSelection` call
whose incoming counters sum to zero over the candidates returns counters
again summing to exactly zero: the call adds every candidate's effective
weight to its counter and then subtracts the total weight from the
selected candidate's counter. -/
theorem C9_wrrCounters_sum_zero (us : List Upstream) (hne : us ≠ [])
    (hnd : (us.map Upstream.id).Nodup) :
    (∀ x, initialLBState.counters x = 0) ∧
    ∀ st s st', (us.map (fun u => st.counters u.id)).sum = 0 →
      weightedRoundRobinSelection us st = .ok (s, st') →
      (us.map (fun u => st'.counters u.id)).sum = 0 := by
  have hinj := List.inj_on_of_nodup_map hnd
  refine ⟨fun _ => rfl, ?_⟩
  intro st s st' hs0 hok
  obtain ⟨u0, hu0, hge⟩ := exists_mem_nonneg_of_sum_nonneg
    (fun u => st.counters u.id) us hne (by rw [hs0])
  have hge' : (0 : ℤ) ≤ st.counters u0.id := hge
  have hpos0 := effWeight_pos u0
  obtain ⟨s₁, st₁, heq, hsmem, hmax, hcs, hcother, hcout, hcidx⟩ :=
    wrrStep_spec us hne hnd st ⟨u0, hu0, by omega⟩
  rw [hok] at heq
  injection heq with hpair
  rw [Prod.mk.injEq] at hpair
  obtain ⟨rfl, rfl⟩ := hpair
  have h1 : us.map (fun u => st'.counters u.id) =
      us.map (fun u => st.counters u.id + (effWeight u : ℤ) -
        (if u.id = s.id then (totalWeight us : ℤ) else 0)) := by
    apply list_map_congr
    intro u hu
    by_cases h : u.id = s.id
    · rw [show u = s from hinj hu hsmem h, if_pos rfl]
      exact hcs
    · rw [hcother u hu h, if_neg h]
      ring
  rw [h1, list_sum_map_add_sub_int (fun u => st.counters u.id)
      (fun u => (effWeight u : ℤ))
      (fun u => if u.id = s.id then (totalWeight us : ℤ) else 0) us,
    hs0, totalWeight_cast,
    list_sum_ite_id ((totalWeight us : ℤ)) us s.id hnd
      (List.mem_map_of_mem Upstream.id hsmem)]
  ring

/-- C9 witness: one concrete call over candidates A (weight 3) and B
(weight 1) from the initial state; the call selects A and the returned
counters (A at -1, B at 1) again sum to zero over the candidates. -/
theorem C9_witness :
    ∃ st', weightedRoundRobinSelection
        [⟨"A", some 3, true⟩, ⟨"B", some 1, true⟩] initialLBState =
        .ok (⟨"A", some 3, true⟩, st') ∧
      (([⟨"A", some 3, true⟩, ⟨"B", some 1, true⟩] : List Upstream).map
        (fun u => st'.counters u.id)).sum = 0 := by
  refine ⟨(wrrRun [⟨"A", some 3, true⟩, ⟨"B", some 1, true⟩] 1).1, rfl, ?_⟩
  exact (C9_wrrCounters_sum_zero [⟨"A", some 3, true⟩, ⟨"B", some 1, true⟩]
    (by decide) (by decide)).2 initialLBState ⟨"A", some 3, true⟩
    ((wrrRun [⟨"A", some 3, true⟩, ⟨"B", some 1, true⟩] 1).1) rfl rfl

end CCGate
